import Mathlib

/-!
# Static file server (`main.go`)

`main` registers `http.FileServer(http.Dir("public"))` for the pattern `/` on the
default `ServeMux` and calls `http.ListenAndServe(":8080", nil)`.  Everything the
program does with a request is done by the Go standard library functions that
these two calls reach (`net/http`, `path`, `path/filepath`, `mime`), so the
embedding follows those functions (Go 1.21, Unix build) statement by statement.
The request multiplexer changed with Go 1.22: it cleans the escaped path instead
of `URL.Path`, and recent releases redirect with another status.  Both
multiplexers are embedded (`serve` and `serveLater`).

Conventions of the embedding:
* a Go `string` holding a path is a `List Char` (`Str`); the code only ever tests
  path bytes against `/`, `.` and NUL, so nothing depends on the encoding;
* file contents are lists of byte values (`List Nat`);
* the operating system is a parameter (`World`): what `os.Open`, `os.Stat`,
  `File.Stat`, `File.ReadDir` and the `mime` table answer; an error is kept by
  the class `errors.Is` puts it in;
* a request carries a method, the host, `URL.Path`, the escaped path as it was
  sent, the query string and `RequestURI`; it has no conditional (`If-*`) and no
  `Range` header, so the branches of `serveFile` and `serveContent` that answer
  such headers (304, 412, 206, 416) are not part of the embedding;
* a response is the status, the `Location`, `Content-Type` and `Content-Length`
  headers and the body as the handler writes them; the body is kept by the
  source of its bytes (`Body`), and each served request comes with the list of
  names given to `os.Open`;
* a loop whose number of turns is bounded by its input takes that bound as an
  argument.
-/

namespace StaticServer

/-- A Go string, as the list of its characters. -/
abbrev Str := List Char

/-! ## Package `path` -/

namespace path

/-- The backtracking loop of `Clean` on a `..` element, entered after `out.w--`:
`for out.w > dotdot && out.index(out.w) != '/' { out.w-- }`.
The argument is the value of `out.w`, the result its value when the loop ends. -/
def backLoop (out : Str) (dotdot : Nat) : Nat → Nat
  | 0 => 0
  | w + 1 =>
    if dotdot < w + 1 ∧ out.getD (w + 1) '/' ≠ '/' then backLoop out dotdot w else w + 1

/-- The main loop of `Clean` (`for r < n { switch ... }`).  `rest` is `path[r:]`,
`out` is the written part `buf[:w]` of the lazy buffer, `dotdot` the index where
`..` must stop.  Every turn consumes at least one byte of `rest`; the first
argument bounds the number of turns and is `len(path)` in `Clean`. -/
def cleanLoop (rooted : Bool) : Nat → Str → Str → Nat → Str
  | 0, _, out, _ => out
  | fuel + 1, rest, out, dotdot =>
    match rest with
    | [] => out
    | c :: t =>
      if c = '/' then
        -- empty path element
        cleanLoop rooted fuel t out dotdot
      else if c = '.' ∧ (t = [] ∨ t.head? = some '/') then
        -- . element
        cleanLoop rooted fuel t out dotdot
      else if c = '.' ∧ t.head? = some '.' ∧ (t.tail = [] ∨ t.tail.head? = some '/') then
        -- .. element: remove to last /
        if dotdot < out.length then
          -- can backtrack
          cleanLoop rooted fuel t.tail (out.take (backLoop out dotdot (out.length - 1))) dotdot
        else if !rooted then
          -- cannot backtrack, but not rooted, so append .. element
          let out1 := if 0 < out.length then out ++ ['/'] else out
          let out2 := out1 ++ ['.', '.']
          cleanLoop rooted fuel t.tail out2 out2.length
        else
          cleanLoop rooted fuel t.tail out dotdot
      else
        -- real path element: add slash if needed, then copy the element
        let out1 :=
          if (rooted ∧ out.length ≠ 1) ∨ (¬ rooted ∧ out.length ≠ 0) then out ++ ['/'] else out
        cleanLoop rooted fuel (rest.dropWhile (· ≠ '/')) (out1 ++ rest.takeWhile (· ≠ '/')) dotdot

/-- Go `path.Clean`: the shortest path name equivalent to `p` by purely lexical
processing. -/
def Clean (p : Str) : Str :=
  if p = [] then ['.']
  else
    let rooted := p.head? = some '/'
    let out := cleanLoop rooted p.length (if rooted then p.tail else p)
      (if rooted then ['/'] else []) (if rooted then 1 else 0)
    -- Turn empty string into "."
    if out.length = 0 then ['.'] else out

/-- Go `path.Base`: the last element of the path, trailing slashes removed;
`.` for the empty path and `/` for a path of slashes only. -/
def Base (p : Str) : Str :=
  if p = [] then ['.']
  else
    let p1 := (p.reverse.dropWhile (· = '/')).reverse
    let p2 := (p1.reverse.takeWhile (· ≠ '/')).reverse
    if p2 = [] then ['/'] else p2

end path

/-! ## Canonical rooted paths -/

/-- A path element that `Clean` keeps: not empty, without a slash, neither `.` nor `..`. -/
def Good (s : Str) : Prop := s ≠ [] ∧ '/' ∉ s ∧ s ≠ ['.'] ∧ s ≠ ['.', '.']

instance Good.decidable (s : Str) : Decidable (Good s) := by
  unfold Good; infer_instance

/-- Every element written with a slash in front: `/a/b/c` for `[a, b, c]`. -/
def slashJoin : List Str → Str
  | [] => []
  | s :: S => '/' :: (s ++ slashJoin S)

/-- The rooted path with the given elements: `/` when there is none. -/
def render (S : List Str) : Str := if S = [] then ['/'] else slashJoin S

/-! ## Package `path/filepath` (Unix build: the separator is `/`) -/

namespace filepath

/-- Go `filepath.Join` on Unix (`join`): the elements from the first non-empty one
on, joined by the separator and cleaned; the empty string when all are empty.
On Unix `filepath.Clean` runs the steps of `path.Clean`. -/
def Join (elem : List Str) : Str :=
  match elem.dropWhile (· = []) with
  | [] => []
  | e :: es => path.Clean (['/'].intercalate (e :: es))

/-- The loop of `filepath.Ext`, run from the last byte backwards: `rev` holds the
bytes not yet visited (last first), `acc` the bytes already passed. -/
def extLoop : Str → Str → Str
  | [], _ => []
  | c :: rev, acc =>
    if c = '/' then [] else if c = '.' then '.' :: acc else extLoop rev (c :: acc)

/-- Go `filepath.Ext`: the suffix of the last path element from its final dot,
empty when it has no dot. -/
def Ext (p : Str) : Str := extLoop p.reverse []

end filepath

/-! ## The operating system -/

/-- An error of the operating system, by the class `errors.Is` puts it in:
`fs.ErrNotExist`, `fs.ErrPermission`, or neither. -/
inductive OsError where
  | notExist
  | permission
  | other
  deriving DecidableEq

/-- Go `fs.FileInfo`, the fields the file server reads. -/
structure FileInfo where
  name : Str
  size : Nat
  isDir : Bool
  deriving DecidableEq

/-- An entry returned by `File.ReadDir`. -/
structure DirEntry where
  name : Str
  isDir : Bool
  deriving DecidableEq

/-- An open `http.File`: what `Stat` answers, the bytes that reading it from the
start yields before it stops, what `ReadDir(-1)` answers, and the error that
stops the reading (`none` when it stops at the end of the file). -/
structure File where
  stat : Except OsError FileInfo
  data : List Nat
  readdir : Except OsError (List DirEntry)
  readErr : Option OsError := none

/-- Reading up to `n` bytes from the start of an open file, as `io.ReadFull` and
`io.CopyN` do: the bytes read, and the error met when fewer than `n` could be
read (`none` there stands for the end of the file). -/
def File.read (f : File) (n : Nat) : List Nat × Option OsError :=
  (f.data.take n, if n ≤ f.data.length then none else f.readErr)

/-- The environment of the process: `os.Open`, `os.Stat`, and the table behind
`mime.TypeByExtension` (which is built from the files of the host, and answers
the empty string for an extension it does not know). -/
structure World where
  osOpen : Str → Except OsError File
  osStat : Str → Except OsError FileInfo
  typeByExtension : Str → String

/-! ## Package `net/http`: content sniffing (`sniff.go`) -/

namespace http

/-- The byte values of an ASCII string literal. -/
def bytes (s : String) : List Nat := s.toList.map Char.toNat

/-- The number of bytes `DetectContentType` considers. -/
def sniffLen : Nat := 512

/-- Go `isWS`: a whitespace byte of the MIME sniffing standard. -/
def isWS (b : Nat) : Bool := b = 9 ∨ b = 10 ∨ b = 12 ∨ b = 13 ∨ b = 32

/-- Go `isTT`: a tag-terminating byte (space or `>`). -/
def isTT (b : Nat) : Bool := b = 32 ∨ b = 62

/-- The signature kinds of `sniff.go`. -/
inductive sniffSig where
  | htmlSig (h : List Nat)
  | maskedSig (mask pat : List Nat) (skipWS : Bool) (ct : String)
  | exactSig (sig : List Nat) (ct : String)
  | mp4Sig
  | textSig

/-- The loop of `mp4Sig.match`: `for st := 8; st < boxSize; st += 4`, skipping
`st == 12`, looking for the brand `mp4`. -/
def mp4Loop (data : List Nat) (boxSize : Nat) : Nat → Nat → Bool
  | 0, _ => false
  | fuel + 1, st =>
    if st < boxSize then
      if st = 12 then mp4Loop data boxSize fuel (st + 4)
      else if (data.drop st).take 3 = bytes "mp4" then true
      else mp4Loop data boxSize fuel (st + 4)
    else false

/-- The `match` method of each signature kind: the content type, or the empty
string when the signature does not match. -/
def sniffSig.match (data : List Nat) (firstNonWS : Nat) : sniffSig → String
  | .htmlSig h =>
    let data := data.drop firstNonWS
    if data.length < h.length + 1 then ""
    else if ¬ (h.zip data).all (fun (b, db) =>
        b == (if 65 ≤ b ∧ b ≤ 90 then db &&& 0xDF else db)) then ""
    else if ¬ isTT (data.getD h.length 0) then ""
    else "text/html; charset=utf-8"
  | .maskedSig mask pat skipWS ct =>
    let data := if skipWS then data.drop firstNonWS else data
    if pat.length ≠ mask.length then ""
    else if data.length < pat.length then ""
    else if ¬ ((pat.zip mask).zip data).all (fun ((pb, mb), db) => db &&& mb == pb) then ""
    else ct
  | .exactSig sig ct => if sig.isPrefixOf data then ct else ""
  | .mp4Sig =>
    if data.length < 12 then ""
    else
      let boxSize := ((data.getD 0 0 * 256 + data.getD 1 0) * 256 + data.getD 2 0) * 256
        + data.getD 3 0
      if data.length < boxSize ∨ boxSize % 4 ≠ 0 then ""
      else if (data.drop 4).take 4 ≠ bytes "ftyp" then ""
      else if mp4Loop data boxSize boxSize 8 then "video/mp4"
      else ""
  | .textSig =>
    if (data.drop firstNonWS).any (fun b =>
        b ≤ 0x08 ∨ b = 0x0B ∨ (0x0E ≤ b ∧ b ≤ 0x1A) ∨ (0x1C ≤ b ∧ b ≤ 0x1F)) then ""
    else "text/plain; charset=utf-8"

/-- The table `sniffSignatures`, in its order. -/
def sniffSignatures : List sniffSig := [
  .htmlSig (bytes "<!DOCTYPE HTML"),
  .htmlSig (bytes "<HTML"),
  .htmlSig (bytes "<HEAD"),
  .htmlSig (bytes "<SCRIPT"),
  .htmlSig (bytes "<IFRAME"),
  .htmlSig (bytes "<H1"),
  .htmlSig (bytes "<DIV"),
  .htmlSig (bytes "<FONT"),
  .htmlSig (bytes "<TABLE"),
  .htmlSig (bytes "<A"),
  .htmlSig (bytes "<STYLE"),
  .htmlSig (bytes "<TITLE"),
  .htmlSig (bytes "<B"),
  .htmlSig (bytes "<BODY"),
  .htmlSig (bytes "<BR"),
  .htmlSig (bytes "<P"),
  .htmlSig (bytes "<!--"),
  .maskedSig [0xFF, 0xFF, 0xFF, 0xFF, 0xFF] (bytes "<?xml") true "text/xml; charset=utf-8",
  .exactSig (bytes "%PDF-") "application/pdf",
  .exactSig (bytes "%!PS-Adobe-") "application/postscript",
  -- UTF BOMs
  .maskedSig [0xFF, 0xFF, 0x00, 0x00] [0xFE, 0xFF, 0x00, 0x00] false "text/plain; charset=utf-16be",
  .maskedSig [0xFF, 0xFF, 0x00, 0x00] [0xFF, 0xFE, 0x00, 0x00] false "text/plain; charset=utf-16le",
  .maskedSig [0xFF, 0xFF, 0xFF, 0x00] [0xEF, 0xBB, 0xBF, 0x00] false "text/plain; charset=utf-8",
  -- Image types
  .exactSig [0x00, 0x00, 0x01, 0x00] "image/x-icon",
  .exactSig [0x00, 0x00, 0x02, 0x00] "image/x-icon",
  .exactSig (bytes "BM") "image/bmp",
  .exactSig (bytes "GIF87a") "image/gif",
  .exactSig (bytes "GIF89a") "image/gif",
  .maskedSig [0xFF, 0xFF, 0xFF, 0xFF, 0, 0, 0, 0, 0xFF, 0xFF, 0xFF, 0xFF, 0xFF, 0xFF]
    (bytes "RIFF" ++ [0, 0, 0, 0] ++ bytes "WEBPVP") false "image/webp",
  .exactSig ([0x89] ++ bytes "PNG" ++ [0x0D, 0x0A, 0x1A, 0x0A]) "image/png",
  .exactSig [0xFF, 0xD8, 0xFF] "image/jpeg",
  -- Audio and video types
  .maskedSig [0xFF, 0xFF, 0xFF, 0xFF, 0, 0, 0, 0, 0xFF, 0xFF, 0xFF, 0xFF]
    (bytes "FORM" ++ [0, 0, 0, 0] ++ bytes "AIFF") false "audio/aiff",
  .maskedSig [0xFF, 0xFF, 0xFF] (bytes "ID3") false "audio/mpeg",
  .maskedSig [0xFF, 0xFF, 0xFF, 0xFF, 0xFF] (bytes "OggS" ++ [0]) false "application/ogg",
  .maskedSig [0xFF, 0xFF, 0xFF, 0xFF, 0xFF, 0xFF, 0xFF, 0xFF] (bytes "MThd" ++ [0, 0, 0, 6]) false
    "audio/midi",
  .maskedSig [0xFF, 0xFF, 0xFF, 0xFF, 0, 0, 0, 0, 0xFF, 0xFF, 0xFF, 0xFF]
    (bytes "RIFF" ++ [0, 0, 0, 0] ++ bytes "AVI ") false "video/avi",
  .maskedSig [0xFF, 0xFF, 0xFF, 0xFF, 0, 0, 0, 0, 0xFF, 0xFF, 0xFF, 0xFF]
    (bytes "RIFF" ++ [0, 0, 0, 0] ++ bytes "WAVE") false "audio/wave",
  .mp4Sig,
  .exactSig [0x1A, 0x45, 0xDF, 0xA3] "video/webm",
  -- Font types
  .maskedSig (List.replicate 34 0 ++ [0xFF, 0xFF]) (List.replicate 34 0 ++ bytes "LP") false
    "application/vnd.ms-fontobject",
  .exactSig [0x00, 0x01, 0x00, 0x00] "font/ttf",
  .exactSig (bytes "OTTO") "font/otf",
  .exactSig (bytes "ttcf") "font/collection",
  .exactSig (bytes "wOFF") "font/woff",
  .exactSig (bytes "wOF2") "font/woff2",
  -- Archive types
  .exactSig [0x1F, 0x8B, 0x08] "application/x-gzip",
  .exactSig (bytes "PK" ++ [0x03, 0x04]) "application/zip",
  .exactSig (bytes "Rar!" ++ [0x1A, 0x07, 0x00]) "application/x-rar-compressed",
  .exactSig (bytes "Rar!" ++ [0x1A, 0x07, 0x01, 0x00]) "application/x-rar-compressed",
  .exactSig [0x00, 0x61, 0x73, 0x6D] "application/wasm",
  .textSig -- should be last
]

/-- The loop of `DetectContentType` over the signatures: the first non-empty
answer, or the fallback `application/octet-stream`. -/
def firstMatch (data : List Nat) (firstNonWS : Nat) : List sniffSig → String
  | [] => "application/octet-stream"
  | sig :: sigs =>
    let ct := sig.match data firstNonWS
    if ct ≠ "" then ct else firstMatch data firstNonWS sigs

/-- Go `http.DetectContentType`: the MIME sniffing algorithm on at most the first
512 bytes of the data. -/
def DetectContentType (data : List Nat) : String :=
  let data := if sniffLen < data.length then data.take sniffLen else data
  let firstNonWS := (data.takeWhile isWS).length
  firstMatch data firstNonWS sniffSignatures

end http

/-! ## Package `net/http`: requests and responses -/

namespace http

/-- An incoming request, as far as the handlers read it.  `hostNoPort` is
`stripHostPort(r.Host)`, `path` is `r.URL.Path` (decoded) and `escapedPath` is
`r.URL.EscapedPath()`, the path as it was sent; `rawQuery` is `r.URL.RawQuery`.
The request has no conditional or `Range` header. -/
structure Request where
  method : String
  host : Str
  hostNoPort : Str
  urlHost : Str
  path : Str
  escapedPath : Str
  requestURI : Str
  rawQuery : Str

/-- The value of a `Location` header: a string set as it is, or the URL with the
given path and query in the escaped form that `URL.String` and `Redirect`
produce. -/
inductive Location where
  | raw (s : Str)
  | url (path rawQuery : Str)
  deriving DecidableEq

/-- What a handler writes as the body, by where the bytes come from: nothing, the
message of `http.Error` (followed by a newline), the bytes read from an open
file, the `<pre>` listing of directory entries, or the short HTML note of
`http.Redirect`. -/
inductive Body where
  | empty
  | text (msg : String)
  | file (data : List Nat)
  | listing (entries : List DirEntry)
  | redirectNote
  deriving DecidableEq

/-- The response a handler writes to its `ResponseWriter`. -/
structure Response where
  status : Nat
  location : Option Location
  contentType : Option String
  contentLength : Option Nat
  body : Body
  deriving DecidableEq

/-- The outcome of serving one request: the response, and the names passed to
`os.Open` on the way, in order. -/
structure Served where
  resp : Response
  opened : List Str
  deriving DecidableEq

def StatusOK : Nat := 200
def StatusMovedPermanently : Nat := 301
def StatusBadRequest : Nat := 400
def StatusForbidden : Nat := 403
def StatusNotFound : Nat := 404
def StatusInternalServerError : Nat := 500

/-- Go `http.Error`: a plain-text reply with the given message and code. -/
def Error (error : String) (code : Nat) : Response :=
  { status := code, location := none, contentType := some "text/plain; charset=utf-8",
    contentLength := none, body := .text error }

/-- Go `toHTTPError`: the message and status for an error of `Open` or `Stat`. -/
def toHTTPError (err : OsError) : String × Nat :=
  if err = .notExist then ("404 page not found", StatusNotFound)
  else if err = .permission then ("403 Forbidden", StatusForbidden)
  else ("500 Internal Server Error", StatusInternalServerError)

/-- Go `localRedirect`: a 301 whose `Location` is the given relative path,
followed by `?` and the query of the request when it has one. -/
def localRedirect (r : Request) (newPath : Str) : Response :=
  let newPath := if r.rawQuery ≠ [] then newPath ++ '?' :: r.rawQuery else newPath
  { status := StatusMovedPermanently, location := some (.raw newPath), contentType := none,
    contentLength := none, body := .empty }

/-- Go `http.Redirect` to the URL with the given path and query: the `Location`
header, the code, and for `GET` the short HTML note as body. -/
def Redirect (r : Request) (urlPath rawQuery : Str) (code : Nat) : Response :=
  { status := code, location := some (.url urlPath rawQuery),
    contentType :=
      if r.method = "GET" ∨ r.method = "HEAD" then some "text/html; charset=utf-8" else none,
    contentLength := none,
    body := if r.method = "GET" then .redirectNote else .empty }

/-! ## Package `net/http`: the file server (`fs.go`) -/

/-- Go `strings.Split(name, "/")`. -/
def splitSlash : Str → List Str
  | [] => [[]]
  | c :: t =>
    if c = '/' then [] :: splitSlash t
    else
      match splitSlash t with
      | [] => [[c]]
      | s :: ss => (c :: s) :: ss

/-- The loop of `mapOpenError` over the parts of the name: `i` is the index of the
part looked at, the first argument the number of parts left. -/
def mapOpenLoop (W : World) (originalErr : OsError) (parts : List Str) : Nat → Nat → OsError
  | 0, _ => originalErr
  | n + 1, i =>
    if parts.getD i [] = [] then mapOpenLoop W originalErr parts n (i + 1)
    else
      match W.osStat (['/'].intercalate (parts.take (i + 1))) with
      | .error _ => originalErr
      | .ok fi =>
        if !fi.isDir then .notExist else mapOpenLoop W originalErr parts n (i + 1)

/-- Go `mapOpenError`: an error about opening a file below a non-directory
becomes `fs.ErrNotExist`; any other error is returned as it is. -/
def mapOpenError (W : World) (originalErr : OsError) (name : Str) : OsError :=
  if originalErr = .notExist ∨ originalErr = .permission then originalErr
  else
    let parts := splitSlash name
    mapOpenLoop W originalErr parts parts.length 0

/-- Go `http.Dir`: the root directory of a file system tree. -/
abbrev Dir := Str

/-- Go `Dir.Open`, with the names it passes to `os.Open`.  A name holding a NUL
byte is refused by `safefilepath.FromFS` before anything is opened. -/
def Dir.Open (W : World) (d : Dir) (name : Str) : Except OsError File × List Str :=
  let p := path.Clean ('/' :: name)
  if Char.ofNat 0 ∈ p then (.error .other, [])
  else
    let dir := if d = [] then ['.'] else d
    let fullName := filepath.Join [dir, p]
    match W.osOpen fullName with
    | .error err => (.error (mapOpenError W err fullName), [fullName])
    | .ok f => (.ok f, [fullName])

/-- Go `dirList`: the listing of the directory entries, sorted by name, or a 500
when the directory cannot be read. -/
def dirList (f : File) : Response :=
  match f.readdir with
  | .error _ => Error "Error reading directory" StatusInternalServerError
  | .ok dirs =>
    { status := StatusOK, location := none, contentType := some "text/html; charset=utf-8",
      contentLength := none,
      body := .listing (dirs.mergeSort (fun a b => decide (a.name ≤ b.name))) }

/-- Go `serveContent` for a request without conditional or `Range` header: the
content type comes from the extension of the name, or from sniffing the first
512 bytes when the extension is unknown; the status is sent, and then `size`
bytes of the content are copied, unless the method is `HEAD`.  The errors of
both reads are dropped, as in `n, _ := io.ReadFull(content, buf[:])` and in the
unchecked `io.CopyN(w, sendContent, sendSize)`. -/
def serveContent (W : World) (r : Request) (name : Str) (size : Nat) (content : File) :
    Response :=
  let ctype := W.typeByExtension (filepath.Ext name)
  let ctype := if ctype = "" then DetectContentType (content.read sniffLen).1 else ctype
  { status := StatusOK, location := none, contentType := some ctype,
    contentLength := some size,
    body := if r.method ≠ "HEAD" then .file (content.read size).1 else .empty }

/-- The index page of a directory. -/
def indexPage : Str := "/index.html".toList

/-- The end of `serveFile`, once `d` and `f` are settled: a directory is listed,
a file is sent. -/
def serveFound (W : World) (r : Request) (d : FileInfo) (f : File) : Response :=
  if d.isDir then dirList f else serveContent W r d.name d.size f

/-- Go `serveFile`, called by the file handler with `redirect = true` and a
request path that begins with `/`. -/
def serveFile (W : World) (r : Request) (fs : Dir) (name : Str) (redirect : Bool) : Served :=
  -- redirect .../index.html to .../
  if indexPage.isSuffixOf r.path then ⟨localRedirect r "./".toList, []⟩
  else
    match Dir.Open W fs name with
    | (.error err, tr) => ⟨Error (toHTTPError err).1 (toHTTPError err).2, tr⟩
    | (.ok f, tr) =>
      match f.stat with
      | .error err => ⟨Error (toHTTPError err).1 (toHTTPError err).2, tr⟩
      | .ok d =>
        let url := r.path
        -- redirect to canonical path: / at end of directory url
        if redirect ∧ d.isDir ∧ url.getLast? ≠ some '/' then
          ⟨localRedirect r (path.Base url ++ ['/']), tr⟩
        else if redirect ∧ ¬ d.isDir ∧ url.getLast? = some '/' then
          ⟨localRedirect r ("../".toList ++ path.Base url), tr⟩
        else if d.isDir then
          -- redirect if the directory name doesn't end in a slash
          if url = [] ∨ url.getLast? ≠ some '/' then
            ⟨localRedirect r (path.Base url ++ ['/']), tr⟩
          else
            -- use contents of index.html for directory, if present
            let index := (if name.getLast? = some '/' then name.dropLast else name) ++ indexPage
            match Dir.Open W fs index with
            | (.ok ff, tr2) =>
              match ff.stat with
              | .ok dd => ⟨serveFound W r dd ff, tr ++ tr2⟩
              | .error _ => ⟨serveFound W r d f, tr ++ tr2⟩
            | (.error _, tr2) => ⟨serveFound W r d f, tr ++ tr2⟩
        else ⟨serveFound W r d f, tr⟩

/-- Go `fileHandler.ServeHTTP`: the path is given a leading slash when it has
none, and the cleaned path is served. -/
def fileHandler.ServeHTTP (W : World) (root : Dir) (r : Request) : Served :=
  let upath := if ['/'].isPrefixOf r.path then r.path else '/' :: r.path
  serveFile W { r with path := upath } root (path.Clean upath) true

/-! ## Package `net/http`: the request multiplexer (`server.go`) -/

/-- The handlers this program can reach: `FileServer(root)`, `NotFoundHandler()`
and `RedirectHandler(url, code)` for the URL with the given path and query. -/
inductive Handler where
  | fileServer (root : Dir)
  | notFound
  | redirect (urlPath rawQuery : Str) (code : Nat)
  deriving DecidableEq

/-- Go `http.FileServer`. -/
def FileServer (root : Dir) : Handler := .fileServer root

/-- Go `muxEntry`. -/
structure muxEntry where
  h : Handler
  pattern : Str
  deriving DecidableEq

/-- Go `ServeMux`: the map of patterns, the entries whose pattern ends in `/`
sorted from longest to shortest, and whether a pattern names a host. -/
structure ServeMux where
  m : List (Str × muxEntry)
  es : List muxEntry
  hosts : Bool
  deriving DecidableEq

/-- The zero `ServeMux`, which `DefaultServeMux` is when the program starts. -/
def DefaultServeMux : ServeMux := { m := [], es := [], hosts := false }

/-- Go `appendSorted`: the entry is put before the first entry with a shorter
pattern. -/
def appendSorted (es : List muxEntry) (e : muxEntry) : List muxEntry :=
  es.takeWhile (fun x => ¬ x.pattern.length < e.pattern.length) ++
    e :: es.dropWhile (fun x => ¬ x.pattern.length < e.pattern.length)

/-- Go `ServeMux.Handle`; the error is the message of the panic. -/
def ServeMux.Handle (mux : ServeMux) (pattern : Str) (handler : Handler) :
    Except String ServeMux :=
  if pattern = [] then .error "http: invalid pattern"
  else if (mux.m.lookup pattern).isSome then
    .error ("http: multiple registrations for " ++ String.mk pattern)
  else
    let e : muxEntry := { h := handler, pattern := pattern }
    .ok { m := (pattern, e) :: mux.m,
          es := if pattern.getLast? = some '/' then appendSorted mux.es e else mux.es,
          hosts := if pattern.head? ≠ some '/' then true else mux.hosts }

/-- Go `cleanPath`: the canonical path for `p`, without `.` and `..` elements and
with a trailing slash kept. -/
def cleanPath (p : Str) : Str :=
  if p = [] then ['/']
  else
    let p := if p.head? ≠ some '/' then '/' :: p else p
    let np := path.Clean p
    -- path.Clean removes trailing slash except for root;
    -- put the trailing slash back if necessary.
    if p.getLast? = some '/' ∧ np ≠ ['/'] then
      if p.length = np.length + 1 ∧ np.isPrefixOf p then p else np ++ ['/']
    else np

/-- Go `ServeMux.match`: the entry of an exact match, else of the longest pattern
that is a prefix of the path. -/
def ServeMux.match (mux : ServeMux) (path : Str) : Option muxEntry :=
  match mux.m.lookup path with
  | some v => some v
  | none => mux.es.find? (fun e => e.pattern.isPrefixOf path)

/-- Go `ServeMux.handler`: the handler and pattern for a host and path. -/
def ServeMux.handler (mux : ServeMux) (host path : Str) : Handler × Str :=
  let r1 := if mux.hosts then mux.match (host ++ path) else none
  let r2 := if r1.isNone then mux.match path else r1
  match r2 with
  | some e => (e.h, e.pattern)
  | none => (.notFound, [])

/-- Go `ServeMux.shouldRedirectRLocked`: whether `path` has no handler while
`path + "/"` has one. -/
def ServeMux.shouldRedirectRLocked (mux : ServeMux) (host path : Str) : Bool :=
  let p := [path, host ++ path]
  if p.any (fun c => (mux.m.lookup c).isSome) then false
  else if path.length = 0 then false
  else if p.any (fun c => (mux.m.lookup (c ++ ['/'])).isSome) then path.getLast? ≠ some '/'
  else false

/-- Go `ServeMux.Handler`: the handler to use for the request.  `CONNECT` requests
are not canonicalized; every other request is redirected when its path is not
the clean one. -/
def ServeMux.Handler (mux : ServeMux) (r : Request) : Handler × Str :=
  if r.method = "CONNECT" then
    if mux.shouldRedirectRLocked r.urlHost r.path then
      (.redirect (r.path ++ ['/']) r.rawQuery StatusMovedPermanently, r.path ++ ['/'])
    else mux.handler r.host r.path
  else
    let host := r.hostNoPort
    let path := cleanPath r.path
    if mux.shouldRedirectRLocked host path then
      (.redirect (path ++ ['/']) r.rawQuery StatusMovedPermanently, path ++ ['/'])
    else if path ≠ r.path then
      (.redirect path r.rawQuery StatusMovedPermanently, (mux.handler host path).2)
    else mux.handler host r.path

/-- The `ServeHTTP` method of each handler. -/
def Handler.ServeHTTP (W : World) (r : Request) : Handler → Served
  | .fileServer root => fileHandler.ServeHTTP W root r
  | .notFound => ⟨Error "404 page not found" StatusNotFound, []⟩
  | .redirect urlPath rawQuery code => ⟨Redirect r urlPath rawQuery code, []⟩

/-- Go `ServeMux.ServeHTTP`: the request goes to the handler whose pattern matches
best; `RequestURI == "*"` is a bad request. -/
def ServeMux.ServeHTTP (mux : ServeMux) (W : World) (r : Request) : Served :=
  if r.requestURI = ['*'] then
    ⟨{ status := StatusBadRequest, location := none, contentType := none,
       contentLength := none, body := .empty }, []⟩
  else (mux.Handler r).1.ServeHTTP W r

/-- Go `serverHandler.ServeHTTP`: a nil handler of the server stands for
`DefaultServeMux`, and `OPTIONS *` is answered by `globalOptionsHandler`. -/
def serverHandler (handler : Option Handler) (defaultMux : ServeMux) (W : World)
    (r : Request) : Served :=
  if r.requestURI = ['*'] ∧ r.method = "OPTIONS" then
    ⟨{ status := StatusOK, location := none, contentType := none, contentLength := some 0,
       body := .empty }, []⟩
  else
    match handler with
    | none => defaultMux.ServeHTTP W r
    | some h => h.ServeHTTP W r

/-! ## Package `net/http`: the request multiplexer since Go 1.22 -/

/-- The lookup `mux.tree.match(host, method, path)` of the later mux, for
patterns that are plain paths without method, as the one of this program: the
pattern tree finds the entry that `ServeMux.match` of Go 1.21 finds, a pattern
with a host first. -/
def ServeMux.treeMatch (mux : ServeMux) (host path : Str) : Option muxEntry :=
  let r1 := if mux.hosts then mux.match (host ++ path) else none
  if r1.isNone then mux.match path else r1

/-- Go `exactMatch` for such a pattern: a pattern that does not end in `/` has no
multi wildcard and matches exactly; one that ends in `/` matches a path exactly
when the path ends in `/` and has as many slashes as the pattern has segments. -/
def exactMatch (n : Option muxEntry) (path : Str) : Bool :=
  match n with
  | none => false
  | some e =>
    if e.pattern.getLast? ≠ some '/' then true
    else if 0 < path.length ∧ path.getLast? ≠ some '/' then false
    else e.pattern.count '/' = path.count '/'

/-- Go `ServeMux.matchOrRedirect`: the entry for the path, or, when `u` (the path
of the request URL) is given and only the path with a slash added has an exact
match, the path to redirect to. -/
def ServeMux.matchOrRedirect (mux : ServeMux) (host path : Str) (u : Option Str) :
    Option muxEntry × Option Str :=
  let n := mux.treeMatch host path
  if ¬ exactMatch n path ∧ u.isSome ∧ path.getLast? ≠ some '/' then
    -- If there is an exact match with a trailing slash, then redirect.
    if exactMatch (mux.treeMatch host (path ++ ['/'])) (path ++ ['/']) then
      (none, some (cleanPath (u.getD []) ++ ['/']))
    else (n, none)
  else (n, none)

/-- Go `ServeMux.findHandler` (Go 1.22 and later): what `ServeMux.Handler` was,
with the escaped path cleaned instead of `URL.Path`.  `redirectStatus` is the
status constant of its redirects: `StatusMovedPermanently` from Go 1.22 on,
`StatusTemporaryRedirect` in recent releases. -/
def ServeMux.findHandler (mux : ServeMux) (redirectStatus : Nat) (r : Request) :
    http.Handler :=
  let escapedPath := r.escapedPath
  if r.method = "CONNECT" then
    -- CONNECT requests are not canonicalized.
    match (mux.matchOrRedirect r.urlHost escapedPath (some r.path)).2 with
    | some u => .redirect u r.rawQuery redirectStatus
    | none =>
      match (mux.matchOrRedirect r.host escapedPath none).1 with
      | some e => e.h
      | none => .notFound
  else
    -- All other requests have any port stripped and path cleaned.
    let host := r.hostNoPort
    let path := cleanPath escapedPath
    match mux.matchOrRedirect host path (some r.path) with
    | (_, some u) => .redirect u r.rawQuery redirectStatus
    | (n, none) =>
      if path ≠ escapedPath then
        -- Redirect to cleaned path.
        .redirect path r.rawQuery redirectStatus
      else
        match n with
        | some e => e.h
        | none => .notFound

/-- Go `ServeMux.ServeHTTP` of the later mux. -/
def ServeMux.ServeHTTPLater (mux : ServeMux) (redirectStatus : Nat) (W : World)
    (r : Request) : Served :=
  if r.requestURI = ['*'] then
    ⟨{ status := StatusBadRequest, location := none, contentType := none,
       contentLength := none, body := .empty }, []⟩
  else (mux.findHandler redirectStatus r).ServeHTTP W r

/-- Go `serverHandler.ServeHTTP` over the later mux. -/
def serverHandlerLater (handler : Option Handler) (defaultMux : ServeMux)
    (redirectStatus : Nat) (W : World) (r : Request) : Served :=
  if r.requestURI = ['*'] ∧ r.method = "OPTIONS" then
    ⟨{ status := StatusOK, location := none, contentType := none, contentLength := some 0,
       body := .empty }, []⟩
  else
    match handler with
    | none => defaultMux.ServeHTTPLater redirectStatus W r
    | some h => h.ServeHTTP W r

end http

/-! ## `main.go` -/

/-- What `http.ListenAndServe` answers in this run: it serves until it fails and
then returns the (non-nil) error, at once when the port cannot be bound. -/
structure Env where
  ListenAndServe : Str → Option http.Handler → String

/-- The process when `main` has returned: the default mux, the address and handler
given to `ListenAndServe`, the exit code, and what was written to standard error. -/
structure Process where
  mux : http.ServeMux
  listen : Option (Str × Option http.Handler)
  exitCode : Nat
  stderr : List String
  deriving DecidableEq

/-- The function `main` of `main.go`:
`http.Handle("/", http.FileServer(http.Dir("public")))` on the default mux, then
`http.ListenAndServe(":8080", nil)`, whose result is dropped.  A panic of
`Handle` ends the process with status 2; when `main` returns the status is 0. -/
def main (env : Env) : Process :=
  match http.DefaultServeMux.Handle "/".toList (http.FileServer "public".toList) with
  | .error msg =>
    { mux := http.DefaultServeMux, listen := none, exitCode := 2, stderr := ["panic: " ++ msg] }
  | .ok mux =>
    let _ := env.ListenAndServe ":8080".toList none
    { mux := mux, listen := some (":8080".toList, none), exitCode := 0, stderr := [] }

/-- The answer of the server that `main` starts to one request: the handler given
to `ListenAndServe` (nil) over the default mux as `main` left it; `none` when
`main` never got to listen. -/
def serve (env : Env) (W : World) (r : http.Request) : Option http.Served :=
  (main env).listen.map (fun l => http.serverHandler l.2 (main env).mux W r)

/-- The answer of the same server built with a toolchain whose mux is the later
one, redirecting with the given status. -/
def serveLater (redirectStatus : Nat) (env : Env) (W : World) (r : http.Request) :
    Option http.Served :=
  (main env).listen.map
    (fun l => http.serverHandlerLater l.2 (main env).mux redirectStatus W r)

/-- The name under `public` that a request path in canonical form stands for: the
path, without its final slash when it has one. -/
def localName (p : Str) : Str :=
  "public".toList ++ (if p.getLast? = some '/' then p.dropLast else p)

/-- Some leading part of the name is a file and not a directory, while every part
before it is a directory: the case in which `mapOpenError` turns an error of
`os.Open` into `fs.ErrNotExist`. -/
def NonDirOnTheWay (W : World) (name : Str) : Prop :=
  ∃ k fk, k < (http.splitSlash name).length ∧ (http.splitSlash name).getD k [] ≠ [] ∧
    W.osStat (['/'].intercalate ((http.splitSlash name).take (k + 1))) = .ok fk ∧
    fk.isDir = false ∧
    ∀ j, j < k → (http.splitSlash name).getD j [] = [] ∨
      ∃ fj, W.osStat (['/'].intercalate ((http.splitSlash name).take (j + 1))) = .ok fj ∧
        fj.isDir = true

/-! ## Example worlds and requests -/

/-- A regular file with the given name and contents. -/
def regularFile (name : Str) (data : List Nat) : File :=
  { stat := .ok { name := name, size := data.length, isDir := false },
    data := data, readdir := .error .other }

/-- A directory with the given name and entries. -/
def directory (name : Str) (entries : List DirEntry) : File :=
  { stat := .ok { name := name, size := 0, isDir := true }, data := [], readdir := .ok entries }

/-- A name of 256 bytes, longer than a file name can be. -/
def longName : Str := List.replicate 256 'a'

/-- What `os.Open` answers in the example of the specification: `public` holds
`index.html` (with the contents `<h1>Hi</h1>`) and `about.html`; there is also
a directory `docs` without index page, a file `notes` without extension, a
file `secret.html` that the process may not read, and a file `broken.html` of
12 bytes on a bad disk block, whose reading fails at once.  Nothing else
exists: a name below the file `about.html` is refused because that is not a
directory, a name with a part longer than 255 bytes because it is too long,
and for any other name there is no such file. -/
def exampleOpen (name : Str) : Except OsError File :=
  if name = "public".toList then
    .ok (directory "public".toList
      [⟨"about.html".toList, false⟩, ⟨"broken.html".toList, false⟩, ⟨"docs".toList, true⟩,
       ⟨"index.html".toList, false⟩, ⟨"notes".toList, false⟩, ⟨"secret.html".toList, false⟩])
  else if name = "public/index.html".toList then
    .ok (regularFile "index.html".toList (http.bytes "<h1>Hi</h1>"))
  else if name = "public/about.html".toList then
    .ok (regularFile "about.html".toList (http.bytes "<p>About</p>"))
  else if name = "public/docs".toList then
    .ok (directory "docs".toList [])
  else if name = "public/notes".toList then
    .ok (regularFile "notes".toList (http.bytes "hello"))
  else if name = "public/secret.html".toList then .error .permission
  else if name = "public/broken.html".toList then
    .ok { stat := .ok { name := "broken.html".toList, size := 12, isDir := false },
          data := [], readdir := .error .other, readErr := some .other }
  else if "public/about.html/".toList.isPrefixOf name then .error .other
  else if (http.splitSlash name).any (fun s => decide (255 < s.length)) then .error .other
  else .error .notExist

/-- The example world: `os.Stat` agrees with `os.Open` (the unreadable file can
still be examined), and the MIME table knows `.html` only. -/
def exampleWorld : World :=
  { osOpen := exampleOpen,
    osStat := fun name =>
      if name = "public/secret.html".toList then
        .ok { name := "secret.html".toList, size := 6, isDir := false }
      else
        match exampleOpen name with
        | .ok f => f.stat
        | .error e => .error e,
    typeByExtension := fun ext => if ext = ".html".toList then "text/html; charset=utf-8" else "" }

/-- A `GET` request for the given path, which needs no escaping, without query,
as a client on the same host sends it. -/
def get (p : String) : http.Request :=
  { method := "GET", host := "localhost:8080".toList, hostNoPort := "localhost".toList,
    urlHost := [], path := p.toList, escapedPath := p.toList, requestURI := p.toList,
    rawQuery := [] }

/-- A `GET` request sent with the escaped path `sent`, which decodes to `p`. -/
def getEscaped (sent p : String) : http.Request :=
  { method := "GET", host := "localhost:8080".toList, hostNoPort := "localhost".toList,
    urlHost := [], path := p.toList, escapedPath := sent.toList, requestURI := sent.toList,
    rawQuery := [] }

/-- The `GET` request for the path `/` followed by the name of 256 bytes. -/
def getLong : http.Request :=
  { method := "GET", host := "localhost:8080".toList, hostNoPort := "localhost".toList,
    urlHost := [], path := '/' :: longName, escapedPath := '/' :: longName,
    requestURI := '/' :: longName, rawQuery := [] }

/-- An environment in which the port cannot be bound. -/
def portInUse : Env :=
  { ListenAndServe := fun _ _ => "listen tcp :8080: bind: address already in use" }

/-! ## Predicates and constants used in the proofs -/

open http

/-- A name inside the tree of `root`: the root followed by elements that `Clean` keeps. -/
def Within (root name : Str) : Prop := ∃ S : List Str, (∀ s ∈ S, Good s) ∧ name = root ++ slashJoin S

/-- Every opened name lies inside `public`, and a body of file bytes is read from
one of the opened files. -/
def Safe (W : World) (s : Served) : Prop :=
  (∀ n ∈ s.opened, Within "public".toList n) ∧
    (∀ data, s.resp.body = .file data → ∃ n ∈ s.opened, ∃ f d,
      W.osOpen n = .ok f ∧ f.stat = .ok d ∧ data = f.data.take d.size)

/-- The default mux when `main` has registered its handler. -/
def mainMux : ServeMux :=
  { m := [("/".toList, ⟨.fileServer "public".toList, "/".toList⟩)],
    es := [⟨.fileServer "public".toList, "/".toList⟩],
    hosts := false }

/-! ## `path.Clean` on rooted paths -/

theorem slashJoin_append (S T : List Str) : slashJoin (S ++ T) = slashJoin S ++ slashJoin T := by
  induction S with
  | nil => rfl
  | cons s S ih => simp [slashJoin, ih]

theorem slashJoin_eq_intercalate (s : Str) (S : List Str) :
    slashJoin (s :: S) = '/' :: ['/'].intercalate (s :: S) := by
  induction S generalizing s with
  | nil => simp [slashJoin, List.intercalate]
  | cons t S ih =>
    have := ih t
    simp only [slashJoin] at this ⊢
    rw [this]
    simp [List.intercalate, List.intersperse]

theorem render_eq_intercalate (S : List Str) : render S = '/' :: ['/'].intercalate S := by
  cases S with
  | nil => simp [render, List.intercalate]
  | cons s S => simp [render, slashJoin_eq_intercalate]

theorem slashJoin_length_cons (s : Str) (S : List Str) (hs : s ≠ []) :
    2 ≤ (slashJoin (s :: S)).length := by
  cases s with
  | nil => exact absurd rfl hs
  | cons c s => simp [slashJoin]

theorem render_length_ne_one (S : List Str) (hS : ∀ s ∈ S, Good s) :
    (render S).length ≠ 1 ↔ S ≠ [] := by
  cases S with
  | nil => simp [render]
  | cons s S =>
    have := slashJoin_length_cons s S (hS s (by simp)).1
    simp [render]; omega

theorem render_concat (S : List Str) (e : Str) :
    render (S ++ [e]) = (if S = [] then render S else render S ++ ['/']) ++ e := by
  cases S with
  | nil => simp [render, slashJoin]
  | cons s S => simp [render, slashJoin_append, slashJoin]

theorem backLoop_eq (out : Str) (d w0 k : Nat) (hstop : w0 ≤ d ∨ out.getD w0 '/' = '/')
    (hrun : ∀ i, w0 < i → i ≤ w0 + k → out.getD i '/' ≠ '/') (hd : d ≤ w0) :
    path.backLoop out d (w0 + k) = w0 := by
  induction k with
  | zero =>
    cases w0 with
    | zero => rfl
    | succ w =>
      simp only [Nat.add_zero, path.backLoop]
      rw [if_neg]
      rintro ⟨h1, h2⟩
      rcases hstop with h | h
      · omega
      · exact h2 h
  | succ k ih =>
    have h1 : out.getD (w0 + k + 1) '/' ≠ '/' := hrun _ (by omega) (by omega)
    show path.backLoop out d (w0 + k + 1) = w0
    simp only [path.backLoop]
    rw [if_pos ⟨by omega, h1⟩]
    exact ih (fun i hi hik => hrun i hi (by omega))

theorem getD_append_right_sj (A s : Str) (i : Nat) (hi : i < s.length) (hs : '/' ∉ s) :
    (A ++ '/' :: s).getD (A.length + 1 + i) '/' ≠ '/' := by
  rw [List.getD_eq_getElem?_getD, List.getElem?_append_right (by omega)]
  have : A.length + 1 + i - A.length = i + 1 := by omega
  rw [this, List.getElem?_cons_succ, List.getElem?_eq_getElem hi]
  simp only [Option.getD_some]
  intro h
  exact hs (h ▸ List.getElem_mem _)

theorem backtrack_render (S : List Str) (s : Str) (hs : Good s) :
    (render (S ++ [s])).take
      (path.backLoop (render (S ++ [s])) 1 ((render (S ++ [s])).length - 1)) = render S := by
  have hne : S ++ [s] ≠ [] := by simp
  have hr : render (S ++ [s]) = slashJoin S ++ '/' :: s := by
    simp [render, slashJoin_append, slashJoin]
  rw [hr]
  obtain ⟨hs1, hs2, -, -⟩ := hs
  have hlen : 1 ≤ s.length := by
    cases s with
    | nil => exact absurd rfl hs1
    | cons c s => simp
  cases S with
  | nil =>
    simp only [slashJoin, List.nil_append, List.length_cons]
    have h := backLoop_eq ('/' :: s) 1 1 (s.length - 1) (Or.inl (le_refl _))
      (fun i h1 h2 => by
        have := getD_append_right_sj [] s (i - 1) (by omega) hs2
        simpa [show 0 + 1 + (i - 1) = i by omega] using this) (le_refl _)
    have e : s.length + 1 - 1 = 1 + (s.length - 1) := by omega
    rw [e, h]
    simp [render]
  | cons t S =>
    have h := backLoop_eq (slashJoin (t :: S) ++ '/' :: s) 1 (slashJoin (t :: S)).length s.length
      (Or.inr (by rw [List.getD_eq_getElem?_getD, List.getElem?_append_right (le_refl _)]; simp))
      (fun i h1 h2 => by
        have := getD_append_right_sj (slashJoin (t :: S)) s (i - (slashJoin (t :: S)).length - 1)
          (by omega) hs2
        rwa [show (slashJoin (t :: S)).length + 1 + (i - (slashJoin (t :: S)).length - 1) = i by
          omega] at this)
      (by simp [slashJoin])
    have e : (slashJoin (t :: S) ++ '/' :: s).length - 1 = (slashJoin (t :: S)).length + s.length := by
      simp
    rw [e, h]
    simp [render]

theorem takeWhile_ne_slash_nil (t : Str) (h : t.takeWhile (· ≠ '/') = []) :
    t = [] ∨ t.head? = some '/' := by
  cases t with
  | nil => exact Or.inl rfl
  | cons a t =>
    right
    by_cases ha : a = '/'
    · simp [ha]
    · simp [List.takeWhile_cons, ha] at h

theorem not_mem_takeWhile_ne_slash (t : Str) : '/' ∉ t.takeWhile (· ≠ '/') := by
  intro h
  have := List.mem_takeWhile_imp h
  simp at this

theorem elem_good (c : Char) (t : Str) (hc : c ≠ '/')
    (h2 : ¬ (c = '.' ∧ (t = [] ∨ t.head? = some '/')))
    (h3 : ¬ (c = '.' ∧ t.head? = some '.' ∧ (t.tail = [] ∨ t.tail.head? = some '/'))) :
    Good ((c :: t).takeWhile (· ≠ '/')) := by
  have e : (c :: t).takeWhile (· ≠ '/') = c :: t.takeWhile (· ≠ '/') := by
    rw [List.takeWhile_cons, if_pos (by simpa using hc)]
  refine ⟨by rw [e]; exact List.cons_ne_nil _ _, not_mem_takeWhile_ne_slash _, ?_, ?_⟩
  · rw [e]
    intro h
    simp only [List.cons.injEq] at h
    exact h2 ⟨h.1, takeWhile_ne_slash_nil t h.2⟩
  · rw [e]
    intro h
    simp only [List.cons.injEq] at h
    obtain ⟨h1, h4⟩ := h
    cases t with
    | nil => simp at h4
    | cons a t =>
      by_cases ha : a = '/'
      · simp [List.takeWhile_cons, ha] at h4
      · simp only [List.takeWhile_cons, ne_eq, ha, not_false_eq_true, decide_True, if_true,
          List.cons.injEq] at h4
        exact h3 ⟨h1, by simp [h4.1], by simpa using takeWhile_ne_slash_nil t h4.2⟩

theorem cleanLoop_rooted (fuel : Nat) (rest : Str) (S : List Str) (hS : ∀ s ∈ S, Good s) :
    ∃ S', (∀ s ∈ S', Good s) ∧ path.cleanLoop true fuel rest (render S) 1 = render S' := by
  induction fuel generalizing rest S with
  | zero => exact ⟨S, hS, rfl⟩
  | succ fuel ih =>
    cases rest with
    | nil => exact ⟨S, hS, rfl⟩
    | cons c t =>
      simp only [path.cleanLoop]
      by_cases h1 : c = '/'
      · rw [if_pos h1]; exact ih t S hS
      rw [if_neg h1]
      by_cases h2 : c = '.' ∧ (t = [] ∨ t.head? = some '/')
      · rw [if_pos h2]; exact ih t S hS
      rw [if_neg h2]
      by_cases h3 : c = '.' ∧ t.head? = some '.' ∧ (t.tail = [] ∨ t.tail.head? = some '/')
      · rw [if_pos h3]
        by_cases h4 : 1 < (render S).length
        · -- a `..` element with something to remove
          rw [if_pos h4]
          have hne : S ≠ [] := by
            rw [← render_length_ne_one S hS]; omega
          obtain ⟨S0, s, rfl⟩ : ∃ S0 s, S = S0 ++ [s] :=
            ⟨S.dropLast, S.getLast hne, (List.dropLast_append_getLast hne).symm⟩
          rw [backtrack_render S0 s (hS s (by simp))]
          exact ih _ S0 (fun x hx => hS x (by simp [hx]))
        · rw [if_neg h4, if_neg (by simp)]
          exact ih _ S hS
      rw [if_neg h3]
      have hgood := elem_good c t h1 h2 h3
      have hall : ∀ x ∈ S ++ [(c :: t).takeWhile (· ≠ '/')], Good x := by
        intro x hx
        rcases List.mem_append.1 hx with h | h
        · exact hS x h
        · rw [List.mem_singleton.1 h]; exact hgood
      have e := render_concat S ((c :: t).takeWhile (· ≠ '/'))
      by_cases hne : S = []
      · rw [if_neg (by
          rintro (h | h)
          · exact ((render_length_ne_one S hS).1 h.2) hne
          · exact h.1 trivial)]
        rw [if_pos hne] at e
        rw [← e]
        exact ih _ _ hall
      · rw [if_pos (Or.inl ⟨trivial, (render_length_ne_one S hS).2 hne⟩)]
        rw [if_neg hne] at e
        rw [← e]
        exact ih _ _ hall

theorem takeWhile_append_stop (t R : Str) (ht : '/' ∉ t) (hR : R = [] ∨ R.head? = some '/') :
    (t ++ R).takeWhile (· ≠ '/') = t ∧ (t ++ R).dropWhile (· ≠ '/') = R := by
  induction t with
  | nil =>
    rcases hR with rfl | h
    · simp
    · cases R with
      | nil => simp
      | cons a R =>
        simp only [List.head?_cons, Option.some.injEq] at h
        subst h
        simp
  | cons a t ih =>
    have ha : a ≠ '/' := fun h => ht (h ▸ List.mem_cons_self _ _)
    have ht2 : '/' ∉ t := fun h => ht (List.mem_cons_of_mem _ h)
    obtain ⟨h1, h2⟩ := ih ht2
    constructor
    · rw [List.cons_append, List.takeWhile_cons, if_pos (by simpa using ha), h1]
    · rw [List.cons_append, List.dropWhile_cons, if_pos (by simpa using ha), h2]

theorem cleanLoop_good (rooted : Bool) (fuel : Nat) (t R out : Str) (d : Nat) (ht : Good t)
    (hR : R = [] ∨ R.head? = some '/') :
    path.cleanLoop rooted (fuel + 1) (t ++ R) out d =
      path.cleanLoop rooted fuel R
        ((if (rooted ∧ out.length ≠ 1) ∨ (¬ rooted ∧ out.length ≠ 0) then out ++ ['/'] else out)
          ++ t) d := by
  obtain ⟨h1, h2, h3, h4⟩ := ht
  obtain ⟨hT, hD⟩ := takeWhile_append_stop t R h2 hR
  cases t with
  | nil => exact absurd rfl h1
  | cons c t =>
    have hc : c ≠ '/' := fun h => h2 (h ▸ List.mem_cons_self _ _)
    have ht2 : '/' ∉ t := fun h => h2 (List.mem_cons_of_mem _ h)
    have hhead : ∀ u : Str, '/' ∉ u → u ≠ [] → (u ++ R).head? ≠ some '/' := by
      intro u hu hne
      cases u with
      | nil => exact absurd rfl hne
      | cons a u =>
        simp only [List.cons_append, List.head?_cons, ne_eq, Option.some.injEq]
        exact fun h => hu (h ▸ List.mem_cons_self _ _)
    have n2 : ¬ (c = '.' ∧ (t ++ R = [] ∨ (t ++ R).head? = some '/')) := by
      rintro ⟨rfl, h⟩
      have htne : t ≠ [] := fun h => h3 (by rw [h])
      rcases h with h | h
      · exact htne (List.append_eq_nil.1 h).1
      · exact hhead t ht2 htne h
    have n3 : ¬ (c = '.' ∧ (t ++ R).head? = some '.' ∧
        ((t ++ R).tail = [] ∨ (t ++ R).tail.head? = some '/')) := by
      rintro ⟨rfl, h, h5⟩
      cases t with
      | nil =>
        rcases hR with rfl | hR
        · simp at h
        · simp [hR] at h
      | cons a t =>
        simp only [List.cons_append, List.head?_cons, Option.some.injEq] at h
        subst h
        have htne : t ≠ [] := fun h => h4 (by rw [h])
        have ht3 : '/' ∉ t := fun h => ht2 (List.mem_cons_of_mem _ h)
        simp only [List.cons_append, List.tail_cons] at h5
        rcases h5 with h5 | h5
        · exact htne (List.append_eq_nil.1 h5).1
        · exact hhead t ht3 htne h5
    simp only [List.cons_append] at hT hD n2 n3 ⊢
    simp only [path.cleanLoop]
    rw [if_neg hc, if_neg n2, if_neg n3, hT, hD]

theorem cleanLoop_slash (rooted : Bool) (fuel : Nat) (R out : Str) (d : Nat) :
    path.cleanLoop rooted (fuel + 1) ('/' :: R) out d = path.cleanLoop rooted fuel R out d := by
  simp [path.cleanLoop]

theorem slashJoin_head (T : List Str) : slashJoin T = [] ∨ (slashJoin T).head? = some '/' := by
  cases T with
  | nil => exact Or.inl rfl
  | cons t T => exact Or.inr rfl

theorem good_length (t : Str) (ht : Good t) : 1 ≤ t.length := by
  cases t with
  | nil => exact absurd rfl ht.1
  | cons c t => simp

theorem cleanLoop_rooted_canon (T S : List Str) (fuel : Nat) (hT : ∀ s ∈ T, Good s)
    (hS : ∀ s ∈ S, Good s) (hf : (slashJoin T).length ≤ fuel) :
    path.cleanLoop true fuel (slashJoin T) (render S) 1 = render (S ++ T) := by
  induction T generalizing S fuel with
  | nil =>
    cases fuel <;> simp [slashJoin, path.cleanLoop]
  | cons t T ih =>
    have ht := hT t (List.mem_cons_self _ _)
    have hl := good_length t ht
    simp only [slashJoin, List.length_cons, List.length_append] at hf
    obtain ⟨f, rfl⟩ : ∃ f, fuel = f + 2 := ⟨fuel - 2, by omega⟩
    simp only [slashJoin]
    rw [cleanLoop_slash, cleanLoop_good true f t _ _ _ ht (slashJoin_head T)]
    have e := render_concat S t
    have hS2 : ∀ x ∈ S ++ [t], Good x := by
      intro x hx
      rcases List.mem_append.1 hx with h | h
      · exact hS x h
      · rw [List.mem_singleton.1 h]; exact ht
    have key : (if (true = true ∧ (render S).length ≠ 1) ∨ (¬ true = true ∧ (render S).length ≠ 0)
        then render S ++ ['/'] else render S) ++ t = render (S ++ [t]) := by
      rw [e]
      by_cases hne : S = []
      · rw [if_pos hne, if_neg]
        rintro (h | h)
        · exact ((render_length_ne_one S hS).1 h.2) hne
        · exact h.1 rfl
      · rw [if_neg hne, if_pos (Or.inl ⟨rfl, (render_length_ne_one S hS).2 hne⟩)]
    rw [key, ih (S ++ [t]) f (fun x hx => hT x (List.mem_cons_of_mem _ hx)) hS2 (by omega)]
    simp

theorem cleanLoop_unrooted_canon (T : List Str) (out : Str) (d fuel : Nat)
    (hT : ∀ s ∈ T, Good s) (hout : out ≠ []) (hf : (slashJoin T).length ≤ fuel) :
    path.cleanLoop false fuel (slashJoin T) out d = out ++ slashJoin T := by
  induction T generalizing out fuel with
  | nil =>
    cases fuel <;> simp [slashJoin, path.cleanLoop]
  | cons t T ih =>
    have ht := hT t (List.mem_cons_self _ _)
    have hl := good_length t ht
    simp only [slashJoin, List.length_cons, List.length_append] at hf
    obtain ⟨f, rfl⟩ : ∃ f, fuel = f + 2 := ⟨fuel - 2, by omega⟩
    simp only [slashJoin]
    rw [cleanLoop_slash, cleanLoop_good false f t _ _ _ ht (slashJoin_head T)]
    have hlen : out.length ≠ 0 := by
      cases out with
      | nil => exact absurd rfl hout
      | cons a out => simp
    rw [if_pos (Or.inr ⟨by simp, hlen⟩),
      ih _ f (fun x hx => hT x (List.mem_cons_of_mem _ hx)) (by simp) (by omega)]
    simp

theorem render_ne_nil (S : List Str) : render S ≠ [] := by
  cases S <;> simp [render, slashJoin]

theorem render_head (S : List Str) : (render S).head? = some '/' := by
  cases S <;> simp [render, slashJoin]

theorem Clean_of_rooted (p : Str) (hp : p.head? = some '/') :
    path.Clean p = path.cleanLoop true p.length p.tail ['/'] 1 ∨
      (path.cleanLoop true p.length p.tail ['/'] 1 = [] ∧ path.Clean p = ['.']) := by
  have hne : p ≠ [] := by rintro rfl; simp at hp
  by_cases h : (path.cleanLoop true p.length p.tail ['/'] 1).length = 0
  · right
    refine ⟨List.length_eq_zero.1 h, ?_⟩
    simp only [path.Clean, if_neg hne, hp, if_true, decide_True, h]
  · left
    simp only [path.Clean, if_neg hne, hp, if_true, decide_True, h, if_false]

theorem Clean_of_unrooted (p : Str) (hne : p ≠ []) (hp : ¬ p.head? = some '/')
    (hout : path.cleanLoop false p.length p [] 0 ≠ []) :
    path.Clean p = path.cleanLoop false p.length p [] 0 := by
  have h : ¬ (path.cleanLoop false p.length p [] 0).length = 0 := by
    simpa using hout
  simp only [path.Clean, if_neg hne, hp, if_false, decide_False, h]

theorem Clean_rooted (p : Str) (hp : p.head? = some '/') :
    ∃ S, (∀ s ∈ S, Good s) ∧ path.Clean p = render S := by
  obtain ⟨S, hS, h⟩ := cleanLoop_rooted p.length p.tail [] (by simp)
  refine ⟨S, hS, ?_⟩
  have hr : render ([] : List Str) = ['/'] := rfl
  rw [hr] at h
  rcases Clean_of_rooted p hp with h1 | ⟨h1, -⟩
  · rw [h1, h]
  · rw [h] at h1; exact absurd h1 (render_ne_nil S)

theorem Clean_render (T : List Str) (hT : ∀ s ∈ T, Good s) : path.Clean (render T) = render T := by
  have hne := render_ne_nil T
  have hh := render_head T
  have h : path.cleanLoop true (render T).length (render T).tail ['/'] 1 = render T := by
    cases T with
    | nil => simp [render, path.cleanLoop]
    | cons t T =>
      have h1 := cleanLoop_rooted_canon (t :: T) [] ((render (t :: T)).length + 1) hT (by simp)
        (by simp [render])
      have h2 : render (t :: T) = '/' :: (render (t :: T)).tail := by simp [render, slashJoin]
      have h3 : slashJoin (t :: T) = '/' :: (render (t :: T)).tail := h2
      rw [h3, cleanLoop_slash] at h1
      simpa [render] using h1
  rcases Clean_of_rooted _ hh with h1 | ⟨h1, -⟩
  · rw [h1, h]
  · rw [h] at h1; exact absurd h1 hne

theorem Clean_join (root : Str) (T : List Str) (hroot : Good root) (hT : ∀ s ∈ T, Good s) :
    path.Clean (root ++ '/' :: render T) = root ++ slashJoin T := by
  have hl := good_length root hroot
  have hne : root ++ '/' :: render T ≠ [] := by
    intro h; have := congrArg List.length h; simp at this
  have hhead : ¬ ((root ++ '/' :: render T).head? = some '/') := by
    cases root with
    | nil => exact absurd rfl hroot.1
    | cons c r =>
      simp only [List.cons_append, List.head?_cons, Option.some.injEq]
      exact fun h => hroot.2.1 (h ▸ List.mem_cons_self _ _)
  have h : path.cleanLoop false (root ++ '/' :: render T).length (root ++ '/' :: render T) [] 0
      = root ++ slashJoin T := by
    obtain ⟨f, hf⟩ : ∃ f, (root ++ '/' :: render T).length = f + 1 := ⟨_, by simp; rfl⟩
    rw [hf, cleanLoop_good false f root _ _ _ hroot (Or.inr (List.head?_cons ..))]
    simp only [List.length_nil, ne_eq, not_true_eq_false, and_false, or_false, List.nil_append]
    rw [if_neg (by simp)]
    simp only [List.length_append, List.length_cons] at hf
    cases T with
    | nil =>
      obtain ⟨g, rfl⟩ : ∃ g, f = g + 2 := ⟨f - 2, by simp [render] at hf; omega⟩
      cases g <;> simp [render, slashJoin, path.cleanLoop]
    | cons t T =>
      obtain ⟨g, rfl⟩ : ∃ g, f = g + 1 := ⟨f - 1, by omega⟩
      rw [cleanLoop_slash]
      have hr : render (t :: T) = slashJoin (t :: T) := by simp [render]
      rw [hr] at hf ⊢
      exact cleanLoop_unrooted_canon (t :: T) root 0 g hT hroot.1 (by omega)
  rw [Clean_of_unrooted _ hne hhead (by rw [h]; simp [hroot.1]), h]

theorem dropWhile_length_le (t : Str) (q : Char → Bool) : (t.dropWhile q).length ≤ t.length := by
  induction t with
  | nil => simp
  | cons a t ih =>
    rw [List.dropWhile_cons]
    split_ifs
    · simp only [List.length_cons]; omega
    · exact le_refl _

/-- The bound on the turns of the loop of `Clean` is never reached: with at least
`len(rest)` turns allowed the result does not depend on the bound, so the loop
has consumed its input when it stops. -/
theorem cleanLoop_fuel (rooted : Bool) (f1 f2 : Nat) (rest out : Str) (d : Nat)
    (h1 : rest.length ≤ f1) (h2 : rest.length ≤ f2) :
    path.cleanLoop rooted f1 rest out d = path.cleanLoop rooted f2 rest out d := by
  induction f1 generalizing f2 rest out d with
  | zero =>
    have : rest = [] := List.length_eq_zero.1 (by omega)
    subst this
    cases f2 <;> rfl
  | succ n ih =>
    cases rest with
    | nil => cases f2 <;> rfl
    | cons c t =>
      obtain ⟨m, rfl⟩ : ∃ m, f2 = m + 1 := ⟨f2 - 1, by simp at h2; omega⟩
      simp only [List.length_cons] at h1 h2
      have ht : t.tail.length ≤ t.length := by simp
      simp only [path.cleanLoop]
      by_cases c1 : c = '/'
      · rw [if_pos c1, if_pos c1]; exact ih m t out d (by omega) (by omega)
      rw [if_neg c1, if_neg c1]
      by_cases c2 : c = '.' ∧ (t = [] ∨ t.head? = some '/')
      · rw [if_pos c2, if_pos c2]; exact ih m t out d (by omega) (by omega)
      rw [if_neg c2, if_neg c2]
      by_cases c3 : c = '.' ∧ t.head? = some '.' ∧ (t.tail = [] ∨ t.tail.head? = some '/')
      · rw [if_pos c3, if_pos c3]
        split_ifs <;> exact ih m _ _ _ (by omega) (by omega)
      rw [if_neg c3, if_neg c3]
      have hd : ((c :: t).dropWhile (· ≠ '/')).length ≤ t.length := by
        rw [List.dropWhile_cons, if_pos (by simpa using c1)]
        exact dropWhile_length_le t _
      exact ih m _ _ _ (by omega) (by omega)


/-! ## The file server on canonical names -/

theorem good_public : Good "public".toList :=
  ⟨by decide, by decide, by decide, by decide⟩

theorem good_index : Good "index.html".toList :=
  ⟨by decide, by decide, by decide, by decide⟩

theorem Clean_slash_render (S : List Str) (hS : ∀ s ∈ S, Good s) :
    path.Clean ('/' :: render S) = render S := by
  have h : path.cleanLoop true ('/' :: render S).length ('/' :: render S).tail ['/'] 1
      = render S := by
    cases S with
    | nil => simp [render, path.cleanLoop]
    | cons t T =>
      have h1 := cleanLoop_rooted_canon (t :: T) [] ('/' :: render (t :: T)).length hS (by simp)
        (by simp [render])
      simpa [render] using h1
  rcases Clean_of_rooted ('/' :: render S) rfl with h1 | ⟨h1, -⟩
  · rw [h1, h]
  · rw [h] at h1; exact absurd h1 (render_ne_nil S)

theorem Join_root_render (root : Str) (S : List Str) (hroot : Good root)
    (hS : ∀ s ∈ S, Good s) : filepath.Join [root, render S] = root ++ slashJoin S := by
  have h1 : [root, render S].dropWhile (· = []) = [root, render S] := by
    rw [List.dropWhile_cons_of_neg]
    simpa using hroot.1
  have h2 : ['/'].intercalate [root, render S] = root ++ '/' :: render S := by
    simp [List.intercalate, List.intersperse]
  simp only [filepath.Join, h1, h2]
  exact Clean_join root S hroot hS

theorem Dir_Open_render (W : World) (S : List Str) (hS : ∀ s ∈ S, Good s) :
    Dir.Open W "public".toList (render S) =
      if Char.ofNat 0 ∈ render S then (.error .other, [])
      else
        match W.osOpen ("public".toList ++ slashJoin S) with
        | .error err =>
          (.error (mapOpenError W err ("public".toList ++ slashJoin S)),
            ["public".toList ++ slashJoin S])
        | .ok f => (.ok f, ["public".toList ++ slashJoin S]) := by
  have hd : ¬ ("public".toList = []) := by decide
  simp only [Dir.Open, Clean_slash_render S hS, if_neg hd,
    Join_root_render _ S good_public hS]

theorem Dir_Open_spec (W : World) (S : List Str) (hS : ∀ s ∈ S, Good s)
    (res : Except OsError File) (tr : List Str)
    (h : Dir.Open W "public".toList (render S) = (res, tr)) :
    (∀ n ∈ tr, n = "public".toList ++ slashJoin S) ∧
      (∀ f, res = .ok f → tr = ["public".toList ++ slashJoin S] ∧
        W.osOpen ("public".toList ++ slashJoin S) = .ok f) := by
  rw [Dir_Open_render W S hS] at h
  by_cases hn : Char.ofNat 0 ∈ render S
  · rw [if_pos hn] at h
    simp only [Prod.mk.injEq] at h
    obtain ⟨rfl, rfl⟩ := h
    exact ⟨by simp, by intro f hf; cases hf⟩
  · rw [if_neg hn] at h
    cases ho : W.osOpen ("public".toList ++ slashJoin S) with
    | error e =>
      rw [ho] at h
      simp only [Prod.mk.injEq] at h
      obtain ⟨rfl, rfl⟩ := h
      exact ⟨by simp, by intro f hf; cases hf⟩
    | ok f =>
      rw [ho] at h
      simp only [Prod.mk.injEq] at h
      obtain ⟨rfl, rfl⟩ := h
      refine ⟨by simp, ?_⟩
      intro g hg
      cases hg
      exact ⟨rfl, rfl⟩

theorem slashJoin_getLast (S : List Str) (hS : ∀ s ∈ S, Good s) (hne : S ≠ []) :
    (slashJoin S).getLast? ≠ some '/' := by
  obtain ⟨S0, s, rfl⟩ : ∃ S0 s, S = S0 ++ [s] :=
    ⟨S.dropLast, S.getLast hne, (List.dropLast_append_getLast hne).symm⟩
  have hs := hS s (by simp)
  obtain ⟨s0, c, rfl⟩ : ∃ s0 c, s = s0 ++ [c] :=
    ⟨s.dropLast, s.getLast hs.1, (List.dropLast_append_getLast hs.1).symm⟩
  have e : slashJoin (S0 ++ [s0 ++ [c]]) = (slashJoin S0 ++ '/' :: s0) ++ [c] := by
    simp [slashJoin_append, slashJoin]
  rw [e, List.getLast?_concat]
  simp only [ne_eq, Option.some.injEq]
  rintro rfl
  exact hs.2.1 (by simp)

theorem index_name (S : List Str) (hS : ∀ s ∈ S, Good s) :
    (if (render S).getLast? = some '/' then (render S).dropLast else render S) ++ indexPage
      = render (S ++ ["index.html".toList]) := by
  cases S with
  | nil => decide
  | cons t T =>
    have h := slashJoin_getLast (t :: T) hS (by simp)
    have hr : render (t :: T) = slashJoin (t :: T) := by simp [render]
    rw [hr, if_neg h]
    simp [render, slashJoin_append, slashJoin, indexPage]

theorem body_serveFound (W : World) (r : Request) (d : FileInfo) (f : File) (data : List Nat)
    (h : (serveFound W r d f).body = .file data) : data = f.data.take d.size := by
  unfold serveFound at h
  split_ifs at h with h1
  · unfold dirList at h
    split at h <;> simp [Error] at h
  · unfold serveContent at h
    simp only at h
    split_ifs at h with h2
    · cases h; rfl

theorem safe_of_no_file (W : World) (resp : Response) (tr : List Str)
    (htr : ∀ n ∈ tr, Within "public".toList n) (hb : ∀ data, resp.body ≠ .file data) :
    Safe W ⟨resp, tr⟩ :=
  ⟨htr, fun data h => absurd h (hb data)⟩

theorem safe_serveFound (W : World) (r : Request) (d : FileInfo) (f : File) (tr : List Str)
    (n : Str) (htr : ∀ n ∈ tr, Within "public".toList n) (hn : n ∈ tr)
    (ho : W.osOpen n = .ok f) (hs : f.stat = .ok d) :
    Safe W ⟨serveFound W r d f, tr⟩ :=
  ⟨htr, fun data h => ⟨n, hn, f, d, ho, hs, body_serveFound W r d f data h⟩⟩

theorem serveFile_safe (W : World) (r : Request) (S : List Str) (hS : ∀ s ∈ S, Good s)
    (b : Bool) : Safe W (serveFile W r "public".toList (render S) b) := by
  have hS2 : ∀ s ∈ S ++ ["index.html".toList], Good s := by
    intro x hx
    rcases List.mem_append.1 hx with h | h
    · exact hS x h
    · rw [List.mem_singleton.1 h]; exact good_index
  unfold serveFile
  simp only [index_name S hS]
  by_cases h0 : indexPage.isSuffixOf r.path = true
  · rw [if_pos h0]
    exact safe_of_no_file W _ _ (by simp) (by simp [localRedirect])
  rw [if_neg h0]
  rcases hO : Dir.Open W "public".toList (render S) with ⟨res, tr⟩
  obtain ⟨htr, hok⟩ := Dir_Open_spec W S hS res tr hO
  have htr2 : ∀ n ∈ tr, Within "public".toList n := fun n hn => ⟨S, hS, htr n hn⟩
  cases res with
  | error e => exact safe_of_no_file W _ _ htr2 (by simp [Error])
  | ok f =>
    obtain ⟨rfl, ho⟩ := hok f rfl
    simp only
    cases hst : f.stat with
    | error e => exact safe_of_no_file W _ _ htr2 (by simp [Error])
    | ok d =>
      simp only
      by_cases h1 : b = true ∧ d.isDir = true ∧ r.path.getLast? ≠ some '/'
      · rw [if_pos h1]
        exact safe_of_no_file W _ _ htr2 (by simp [localRedirect])
      rw [if_neg h1]
      by_cases h2 : b = true ∧ ¬ d.isDir = true ∧ r.path.getLast? = some '/'
      · rw [if_pos h2]
        exact safe_of_no_file W _ _ htr2 (by simp [localRedirect])
      rw [if_neg h2]
      by_cases h3 : d.isDir = true
      · rw [if_pos h3]
        by_cases h4 : r.path = [] ∨ r.path.getLast? ≠ some '/'
        · rw [if_pos h4]
          exact safe_of_no_file W _ _ htr2 (by simp [localRedirect])
        rw [if_neg h4]
        rcases hO2 : Dir.Open W "public".toList (render (S ++ ["index.html".toList]))
          with ⟨res2, tr2⟩
        obtain ⟨htr3, hok2⟩ := Dir_Open_spec W _ hS2 res2 tr2 hO2
        have hall : ∀ n ∈ ["public".toList ++ slashJoin S] ++ tr2,
            Within "public".toList n := by
          intro n hn
          rcases List.mem_append.1 hn with h | h
          · exact htr2 n h
          · exact ⟨_, hS2, htr3 n h⟩
        cases res2 with
        | error e =>
          exact safe_serveFound W r d f _ _ hall (by simp) ho hst
        | ok ff =>
          obtain ⟨rfl, ho2⟩ := hok2 ff rfl
          simp only
          cases hst2 : ff.stat with
          | error e => exact safe_serveFound W r d f _ _ hall (by simp) ho hst
          | ok dd => exact safe_serveFound W r dd ff _ _ hall (by simp) ho2 hst2
      · rw [if_neg h3]
        exact safe_serveFound W r d f _ _ htr2 (by simp) ho hst

theorem isPrefixOf_slash (p : Str) : (['/'].isPrefixOf p = true) ↔ p.head? = some '/' := by
  cases p with
  | nil => simp [List.isPrefixOf]
  | cons c t =>
    simp only [List.isPrefixOf, Bool.and_true, beq_iff_eq, List.head?_cons, Option.some.injEq]
    exact eq_comm

theorem upath_head (p : Str) :
    (if ['/'].isPrefixOf p then p else '/' :: p).head? = some '/' := by
  by_cases h : ['/'].isPrefixOf p = true
  · rw [if_pos h]; exact (isPrefixOf_slash p).1 h
  · rw [if_neg h]; rfl

theorem fileHandler_safe (W : World) (r : Request) :
    Safe W (fileHandler.ServeHTTP W "public".toList r) := by
  obtain ⟨S, hS, h⟩ := Clean_rooted _ (upath_head r.path)
  unfold fileHandler.ServeHTTP
  simp only [h]
  exact serveFile_safe W _ S hS true

theorem main_eq (env : Env) :
    main env = { mux := mainMux, listen := some (":8080".toList, none), exitCode := 0,
                 stderr := [] } := rfl

theorem serve_eq (env : Env) (W : World) (r : Request) :
    serve env W r = some (serverHandler none mainMux W r) := rfl

theorem lookup_mainMux (c : Str) :
    mainMux.m.lookup c =
      if c = ['/'] then some ⟨.fileServer "public".toList, "/".toList⟩ else none := by
  simp only [mainMux, List.lookup]
  by_cases h : c = ['/']
  · subst h; rfl
  · rw [if_neg h]
    have : (c == "/".toList) = false := by
      simpa using h
    rw [this]

theorem shouldRedirect_mainMux (host p : Str) :
    mainMux.shouldRedirectRLocked host p = false := by
  unfold ServeMux.shouldRedirectRLocked
  simp only [lookup_mainMux]
  split_ifs with h1 h2 h3
  · rfl
  · rfl
  · exfalso
    simp only [List.any_cons, List.any_nil, Bool.or_false, Bool.or_eq_true] at h3
    have hp : p ≠ [] := by
      intro h; exact h2 (by simp [h])
    rcases h3 with h | h
    · split_ifs at h with h4
      · exact hp (by simpa using h4)
      · simp at h
    · split_ifs at h with h4
      · have h5 := congrArg List.length h4
        simp only [List.append_assoc, List.length_append, List.length_cons, List.length_nil] at h5
        exact hp (List.length_eq_zero.1 (by omega))
      · simp at h
  · rfl

theorem match_mainMux (p : Str) :
    mainMux.match p =
      if p.head? = some '/' then some ⟨.fileServer "public".toList, "/".toList⟩ else none := by
  unfold ServeMux.match
  rw [lookup_mainMux]
  by_cases h : p = ['/']
  · subst h; rfl
  · rw [if_neg h]
    simp only [mainMux, List.find?]
    by_cases h2 : p.head? = some '/'
    · have : "/".toList.isPrefixOf p = true := (isPrefixOf_slash p).2 h2
      rw [this, if_pos h2]
    · have : "/".toList.isPrefixOf p = false := by
        have := (isPrefixOf_slash p).not.2 h2
        exact Bool.eq_false_iff.2 this
      rw [this, if_neg h2]

theorem handler_mainMux (host p : Str) :
    mainMux.handler host p =
      if p.head? = some '/' then (.fileServer "public".toList, "/".toList)
      else (.notFound, []) := by
  unfold ServeMux.handler
  have hh : mainMux.hosts = false := rfl
  simp only [hh, match_mainMux]
  by_cases h : p.head? = some '/'
  · simp [h]
  · simp [h]

theorem cleanPath_head (p : Str) : (cleanPath p).head? = some '/' := by
  unfold cleanPath
  by_cases h : p = []
  · rw [if_pos h]; rfl
  rw [if_neg h]
  have hh : (if p.head? ≠ some '/' then '/' :: p else p).head? = some '/' := by
    by_cases h1 : p.head? ≠ some '/'
    · rw [if_pos h1]; rfl
    · rw [if_neg h1]; exact not_not.1 h1
  generalize (if p.head? ≠ some '/' then '/' :: p else p) = q at hh ⊢
  obtain ⟨S, hS, hc⟩ := Clean_rooted q hh
  simp only [hc]
  split_ifs with h1 h2
  · exact hh
  · rw [List.head?_append, render_head]; rfl
  · exact render_head S

theorem cleanPath_fixed (p : Str) (h : cleanPath p = p) :
    ∃ S, (∀ s ∈ S, Good s) ∧ path.Clean p = render S ∧
      ((p = render S ∧ (S ≠ [] → p.getLast? ≠ some '/')) ∨
        (p = render S ++ ['/'] ∧ S ≠ [])) := by
  have hhead : p.head? = some '/' := by rw [← h]; exact cleanPath_head p
  have hne : p ≠ [] := by rintro rfl; simp at hhead
  obtain ⟨S, hS, hc⟩ := Clean_rooted p hhead
  refine ⟨S, hS, hc, ?_⟩
  unfold cleanPath at h
  rw [if_neg hne] at h
  have h1 : ¬ (p.head? ≠ some '/') := not_not.2 hhead
  simp only [if_neg h1, hc] at h
  have hS0 : render S ≠ ['/'] ↔ S ≠ [] := by
    cases S with
    | nil => simp [render]
    | cons t T =>
      have := slashJoin_length_cons t T (hS t (by simp)).1
      simp only [render, ne_eq, reduceCtorEq, not_false_eq_true, iff_true, if_false]
      intro h2
      rw [h2] at this
      simp at this
  by_cases h2 : p.getLast? = some '/' ∧ render S ≠ ['/']
  · rw [if_pos h2] at h
    right
    refine ⟨?_, hS0.1 h2.2⟩
    by_cases h3 : p.length = (render S).length + 1 ∧ (render S).isPrefixOf p = true
    · obtain ⟨h4, h5⟩ := h3
      obtain ⟨t, rfl⟩ := List.isPrefixOf_iff_prefix.1 h5
      have ht : t.length = 1 := by simp at h4; omega
      obtain ⟨c, rfl⟩ := List.length_eq_one.1 ht
      have := h2.1
      rw [List.getLast?_concat] at this
      cases this
      rfl
    · rw [if_neg h3] at h
      exact h.symm
  · rw [if_neg h2] at h
    left
    refine ⟨h.symm, ?_⟩
    intro hS1 h3
    exact h2 ⟨h3, hS0.2 hS1⟩

theorem Handler_mainMux_clean (r : Request) (h : cleanPath r.path = r.path) :
    (mainMux.Handler r).1 = .fileServer "public".toList := by
  have hhead : r.path.head? = some '/' := by rw [← h]; exact cleanPath_head r.path
  unfold ServeMux.Handler
  simp only [shouldRedirect_mainMux, handler_mainMux, h, hhead]
  simp

theorem Handler_mainMux_unclean (r : Request) (hm : r.method ≠ "CONNECT")
    (h : cleanPath r.path ≠ r.path) :
    (mainMux.Handler r).1 = .redirect (cleanPath r.path) r.rawQuery StatusMovedPermanently := by
  unfold ServeMux.Handler
  simp only [shouldRedirect_mainMux, if_neg hm]
  simp [h]

theorem Handler_mainMux_cases (r : Request) :
    (mainMux.Handler r).1 = .fileServer "public".toList ∨ (mainMux.Handler r).1 = .notFound ∨
      (mainMux.Handler r).1 = .redirect (cleanPath r.path) r.rawQuery StatusMovedPermanently := by
  by_cases hm : r.method = "CONNECT"
  · unfold ServeMux.Handler
    simp only [shouldRedirect_mainMux, if_pos hm, handler_mainMux]
    by_cases hh : r.path.head? = some '/'
    · left; simp [hh]
    · right; left; simp [hh]
  · by_cases h : cleanPath r.path = r.path
    · exact Or.inl (Handler_mainMux_clean r h)
    · exact Or.inr (Or.inr (Handler_mainMux_unclean r hm h))

theorem serve_clean (env : Env) (W : World) (r : Request) (huri : r.requestURI ≠ ['*'])
    (h : cleanPath r.path = r.path) :
    serve env W r = some (fileHandler.ServeHTTP W "public".toList r) := by
  rw [serve_eq]
  unfold serverHandler
  rw [if_neg (fun hh => huri hh.1)]
  simp only [ServeMux.ServeHTTP, if_neg huri, Handler_mainMux_clean r h, Handler.ServeHTTP]

theorem serve_unclean (env : Env) (W : World) (r : Request) (huri : r.requestURI ≠ ['*'])
    (hm : r.method ≠ "CONNECT") (h : cleanPath r.path ≠ r.path) :
    serve env W r = some ⟨Redirect r (cleanPath r.path) r.rawQuery StatusMovedPermanently, []⟩ := by
  rw [serve_eq]
  unfold serverHandler
  rw [if_neg (fun hh => huri hh.1)]
  simp only [ServeMux.ServeHTTP, if_neg huri, Handler_mainMux_unclean r hm h, Handler.ServeHTTP]

theorem serve_safe (env : Env) (W : World) (r : Request) :
    ∃ s, serve env W r = some s ∧ Safe W s := by
  refine ⟨_, serve_eq env W r, ?_⟩
  unfold serverHandler
  split_ifs with h1
  · exact safe_of_no_file W _ _ (by simp) (by simp)
  · simp only [ServeMux.ServeHTTP]
    split_ifs with h2
    · exact safe_of_no_file W _ _ (by simp) (by simp)
    · rcases Handler_mainMux_cases r with h | h | h
      · rw [h]; exact fileHandler_safe W r
      · rw [h]; exact safe_of_no_file W _ _ (by simp) (by simp [Error])
      · rw [h]
        refine safe_of_no_file W _ _ (by simp) ?_
        intro data
        simp only [Redirect]
        split_ifs <;> simp

theorem cleanLoop_rooted_canon_slash (T S : List Str) (fuel : Nat) (hT : ∀ s ∈ T, Good s)
    (hS : ∀ s ∈ S, Good s) (hf : (slashJoin T).length + 1 ≤ fuel) :
    path.cleanLoop true fuel (slashJoin T ++ ['/']) (render S) 1 = render (S ++ T) := by
  induction T generalizing S fuel with
  | nil =>
    obtain ⟨f, rfl⟩ : ∃ f, fuel = f + 1 := ⟨fuel - 1, by omega⟩
    cases f <;> simp [slashJoin, path.cleanLoop]
  | cons t T ih =>
    have ht := hT t (List.mem_cons_self _ _)
    have hl := good_length t ht
    simp only [slashJoin, List.length_cons, List.length_append] at hf
    obtain ⟨f, rfl⟩ : ∃ f, fuel = f + 2 := ⟨fuel - 2, by omega⟩
    have hR : slashJoin T ++ ['/'] = [] ∨ (slashJoin T ++ ['/']).head? = some '/' := by
      right
      cases T <;> rfl
    simp only [slashJoin, List.cons_append, List.append_assoc]
    rw [cleanLoop_slash, cleanLoop_good true f t _ _ _ ht hR]
    have e := render_concat S t
    have hS2 : ∀ x ∈ S ++ [t], Good x := by
      intro x hx
      rcases List.mem_append.1 hx with h | h
      · exact hS x h
      · rw [List.mem_singleton.1 h]; exact ht
    have key : (if (true = true ∧ (render S).length ≠ 1) ∨ (¬ true = true ∧ (render S).length ≠ 0)
        then render S ++ ['/'] else render S) ++ t = render (S ++ [t]) := by
      rw [e]
      by_cases hne : S = []
      · rw [if_pos hne, if_neg]
        rintro (h | h)
        · exact ((render_length_ne_one S hS).1 h.2) hne
        · exact h.1 rfl
      · rw [if_neg hne, if_pos (Or.inl ⟨rfl, (render_length_ne_one S hS).2 hne⟩)]
    rw [key, ih (S ++ [t]) f (fun x hx => hT x (List.mem_cons_of_mem _ hx)) hS2 (by omega)]
    simp

theorem Clean_slashJoin_slash (S : List Str) (hS : ∀ s ∈ S, Good s) :
    path.Clean (slashJoin S ++ ['/']) = render S := by
  cases S with
  | nil => decide
  | cons t T =>
    have hh : (slashJoin (t :: T) ++ ['/']).head? = some '/' := rfl
    have h : path.cleanLoop true (slashJoin (t :: T) ++ ['/']).length
        (slashJoin (t :: T) ++ ['/']).tail ['/'] 1 = render (t :: T) := by
      have h1 := cleanLoop_rooted_canon_slash (t :: T) []
        ((slashJoin (t :: T) ++ ['/']).length + 1) hS (by simp) (by simp)
      have h3 : slashJoin (t :: T) ++ ['/'] = '/' :: (slashJoin (t :: T) ++ ['/']).tail := rfl
      rw [h3, cleanLoop_slash] at h1
      simpa [render] using h1
    rcases Clean_of_rooted _ hh with h1 | ⟨h1, -⟩
    · rw [h1, h]
    · rw [h] at h1; exact absurd h1 (render_ne_nil _)

theorem cleanPath_slashJoin (S : List Str) (hS : ∀ s ∈ S, Good s) (hne : S ≠ []) :
    cleanPath (slashJoin S) = slashJoin S := by
  have hr : render S = slashJoin S := by simp [render, hne]
  have h0 : slashJoin S ≠ [] := by rw [← hr]; exact render_ne_nil S
  have h1 : ¬ ((slashJoin S).head? ≠ some '/') := by rw [← hr]; exact not_not.2 (render_head S)
  have hc : path.Clean (slashJoin S) = slashJoin S := by
    have := Clean_render S hS
    rwa [hr] at this
  unfold cleanPath
  simp only [if_neg h0, if_neg h1, hc]
  rw [if_neg]
  exact fun h => slashJoin_getLast S hS hne h.1

theorem cleanPath_slashJoin_slash (S : List Str) (hS : ∀ s ∈ S, Good s) :
    cleanPath (slashJoin S ++ ['/']) = slashJoin S ++ ['/'] := by
  cases S with
  | nil => decide
  | cons t T =>
    have h0 : slashJoin (t :: T) ++ ['/'] ≠ [] := by simp
    have h1 : ¬ ((slashJoin (t :: T) ++ ['/']).head? ≠ some '/') := not_not.2 rfl
    have hr : render (t :: T) = slashJoin (t :: T) := by simp [render]
    unfold cleanPath
    simp only [if_neg h0, if_neg h1, Clean_slashJoin_slash _ hS, hr]
    have hl : (slashJoin (t :: T) ++ ['/']).getLast? = some '/' := by
      rw [List.getLast?_concat]
    have hn : slashJoin (t :: T) ≠ ['/'] := by
      intro h
      have := slashJoin_length_cons t T (hS t (by simp)).1
      rw [h] at this
      simp at this
    rw [if_pos ⟨hl, hn⟩, if_pos]
    refine ⟨by simp, ?_⟩
    exact List.isPrefixOf_iff_prefix.2 (List.prefix_append _ _)

theorem request_eta (r : Request) : { r with path := r.path } = r := by
  cases r; rfl

theorem fileHandler_eq_serveFile (W : World) (r : Request) (S : List Str)
    (hh : r.path.head? = some '/') (hc : path.Clean r.path = render S) :
    fileHandler.ServeHTTP W "public".toList r = serveFile W r "public".toList (render S) true := by
  unfold fileHandler.ServeHTTP
  have h1 : ['/'].isPrefixOf r.path = true := (isPrefixOf_slash r.path).2 hh
  simp only [h1, if_true, request_eta, hc]

theorem nul_render (S : List Str) (h : Char.ofNat 0 ∉ slashJoin S) : Char.ofNat 0 ∉ render S := by
  cases S with
  | nil => decide
  | cons t T => simpa [render] using h

theorem Dir_Open_error (W : World) (S : List Str) (hS : ∀ s ∈ S, Good s)
    (hnul : Char.ofNat 0 ∉ slashJoin S) (e : OsError)
    (ho : W.osOpen ("public".toList ++ slashJoin S) = .error e) :
    Dir.Open W "public".toList (render S) =
      (.error (mapOpenError W e ("public".toList ++ slashJoin S)),
        ["public".toList ++ slashJoin S]) := by
  rw [Dir_Open_render W S hS, if_neg (nul_render S hnul), ho]

theorem Dir_Open_ok (W : World) (S : List Str) (hS : ∀ s ∈ S, Good s)
    (hnul : Char.ofNat 0 ∉ slashJoin S) (f : File)
    (ho : W.osOpen ("public".toList ++ slashJoin S) = .ok f) :
    Dir.Open W "public".toList (render S) = (.ok f, ["public".toList ++ slashJoin S]) := by
  rw [Dir_Open_render W S hS, if_neg (nul_render S hnul), ho]

theorem serveFile_open_error (W : World) (r : Request) (name : Str) (e : OsError)
    (tr : List Str) (hidx : ¬ indexPage.isSuffixOf r.path = true)
    (hO : Dir.Open W "public".toList name = (.error e, tr)) :
    serveFile W r "public".toList name true = ⟨Error (toHTTPError e).1 (toHTTPError e).2, tr⟩ := by
  unfold serveFile
  rw [if_neg hidx, hO]

theorem serveFile_stat_error (W : World) (r : Request) (name : Str) (f : File) (e : OsError)
    (tr : List Str) (hidx : ¬ indexPage.isSuffixOf r.path = true)
    (hO : Dir.Open W "public".toList name = (.ok f, tr)) (hst : f.stat = .error e) :
    serveFile W r "public".toList name true = ⟨Error (toHTTPError e).1 (toHTTPError e).2, tr⟩ := by
  unfold serveFile
  rw [if_neg hidx, hO]
  simp only [hst]

theorem serveFile_regular (W : World) (r : Request) (name : Str) (f : File) (d : FileInfo)
    (tr : List Str) (hidx : ¬ indexPage.isSuffixOf r.path = true)
    (hO : Dir.Open W "public".toList name = (.ok f, tr)) (hst : f.stat = .ok d)
    (hd : d.isDir = false) (hl : r.path.getLast? ≠ some '/') :
    serveFile W r "public".toList name true = ⟨serveContent W r d.name d.size f, tr⟩ := by
  unfold serveFile
  rw [if_neg hidx, hO]
  simp only [hst, hd, serveFound]
  simp [hl]

theorem serveFile_dir_noslash (W : World) (r : Request) (name : Str) (f : File) (d : FileInfo)
    (tr : List Str) (hidx : ¬ indexPage.isSuffixOf r.path = true)
    (hO : Dir.Open W "public".toList name = (.ok f, tr)) (hst : f.stat = .ok d)
    (hd : d.isDir = true) (hl : r.path.getLast? ≠ some '/') :
    serveFile W r "public".toList name true = ⟨localRedirect r (path.Base r.path ++ ['/']), tr⟩ := by
  unfold serveFile
  rw [if_neg hidx, hO]
  simp only [hst, hd]
  simp [hl]

theorem not_index_of_slash (p : Str) (hl : p.getLast? = some '/') :
    ¬ indexPage.isSuffixOf p = true := by
  intro h
  obtain ⟨t, rfl⟩ := List.isSuffixOf_iff_suffix.1 h
  have : (t ++ indexPage).getLast? = some 'l' := by
    have e : indexPage = "/index.htm".toList ++ ['l'] := by decide
    rw [e, ← List.append_assoc, List.getLast?_concat]
  rw [this] at hl
  exact absurd hl (by decide)

theorem nul_index (S : List Str) (h : Char.ofNat 0 ∉ slashJoin S) :
    Char.ofNat 0 ∉ slashJoin (S ++ ["index.html".toList]) := by
  rw [slashJoin_append]
  intro h2
  rcases List.mem_append.1 h2 with h3 | h3
  · exact h h3
  · revert h3; decide

theorem good_snoc_index (S : List Str) (hS : ∀ s ∈ S, Good s) :
    ∀ s ∈ S ++ ["index.html".toList], Good s := by
  intro x hx
  rcases List.mem_append.1 hx with h | h
  · exact hS x h
  · rw [List.mem_singleton.1 h]; exact good_index

theorem slashJoin_index (S : List Str) :
    slashJoin (S ++ ["index.html".toList]) = slashJoin S ++ indexPage := by
  rw [slashJoin_append]; rfl

theorem serveFile_dir_slash (W : World) (r : Request) (S : List Str) (hS : ∀ s ∈ S, Good s)
    (f : File) (d : FileInfo) (tr : List Str) (hl : r.path.getLast? = some '/')
    (hO : Dir.Open W "public".toList (render S) = (.ok f, tr)) (hst : f.stat = .ok d)
    (hd : d.isDir = true) :
    serveFile W r "public".toList (render S) true =
      match Dir.Open W "public".toList (render (S ++ ["index.html".toList])) with
      | (.ok ff, tr2) =>
        match ff.stat with
        | .ok dd => ⟨serveFound W r dd ff, tr ++ tr2⟩
        | .error _ => ⟨serveFound W r d f, tr ++ tr2⟩
      | (.error _, tr2) => ⟨serveFound W r d f, tr ++ tr2⟩ := by
  have hne : r.path ≠ [] := by rintro h; rw [h] at hl; simp at hl
  unfold serveFile
  rw [if_neg (not_index_of_slash _ hl), hO]
  simp only [hst, hd, index_name S hS]
  simp only [hl, hne, ne_eq, not_true_eq_false, and_false, if_false, not_false_eq_true,
    and_true, if_true, or_self]

theorem canon_of_clean (p : Str) (hclean : cleanPath p = p) (hslash : p.getLast? ≠ some '/') :
    ∃ S, (∀ s ∈ S, Good s) ∧ S ≠ [] ∧ p = slashJoin S ∧ path.Clean p = render S := by
  obtain ⟨S, hS, hc, h | h⟩ := cleanPath_fixed p hclean
  · have hne : S ≠ [] := by
      rintro rfl
      rw [h.1] at hslash
      exact hslash rfl
    refine ⟨S, hS, hne, ?_, hc⟩
    rw [h.1]; simp [render, hne]
  · exfalso
    rw [h.1, List.getLast?_concat] at hslash
    exact hslash rfl

theorem serve_path_cases (env : Env) (W : World) (r : Request) (huri : r.requestURI ≠ ['*'])
    (hclean : cleanPath r.path = r.path) (hslash : r.path.getLast? ≠ some '/')
    (hidx : ¬ indexPage.isSuffixOf r.path = true) (hnul : Char.ofNat 0 ∉ r.path) :
    (∀ e, W.osOpen ("public".toList ++ r.path) = .error e →
      serve env W r = some
        ⟨Error (toHTTPError (mapOpenError W e ("public".toList ++ r.path))).1
          (toHTTPError (mapOpenError W e ("public".toList ++ r.path))).2,
          ["public".toList ++ r.path]⟩) ∧
    (∀ f e, W.osOpen ("public".toList ++ r.path) = .ok f → f.stat = .error e →
      serve env W r = some
        ⟨Error (toHTTPError e).1 (toHTTPError e).2, ["public".toList ++ r.path]⟩) ∧
    (∀ f d, W.osOpen ("public".toList ++ r.path) = .ok f → f.stat = .ok d → d.isDir = false →
      serve env W r = some
        ⟨serveContent W r d.name d.size f, ["public".toList ++ r.path]⟩) ∧
    (∀ f d, W.osOpen ("public".toList ++ r.path) = .ok f → f.stat = .ok d → d.isDir = true →
      serve env W r = some
        ⟨localRedirect r (path.Base r.path ++ ['/']), ["public".toList ++ r.path]⟩) := by
  obtain ⟨S, hS, hne, hp, hc⟩ := canon_of_clean r.path hclean hslash
  have hhead : r.path.head? = some '/' := by rw [← hclean]; exact cleanPath_head r.path
  have hserve : serve env W r = some (serveFile W r "public".toList (render S) true) := by
    rw [serve_clean env W r huri hclean, fileHandler_eq_serveFile W r S hhead hc]
  rw [hserve]
  have hnul2 : Char.ofNat 0 ∉ slashJoin S := by rw [← hp]; exact hnul
  refine ⟨?_, ?_, ?_, ?_⟩
  · intro e ho
    rw [hp] at ho ⊢
    rw [serveFile_open_error W r _ _ _ hidx (Dir_Open_error W S hS hnul2 e ho)]
  · intro f e ho hst
    rw [hp] at ho ⊢
    rw [serveFile_stat_error W r _ f e _ hidx (Dir_Open_ok W S hS hnul2 f ho) hst]
  · intro f d ho hst hd
    rw [serveFile_regular W r _ f d _ hidx
      (Dir_Open_ok W S hS hnul2 f (by rw [← hp]; exact ho)) hst hd hslash, hp]
  · intro f d ho hst hd
    rw [serveFile_dir_noslash W r _ f d _ hidx
      (Dir_Open_ok W S hS hnul2 f (by rw [← hp]; exact ho)) hst hd hslash, hp]

theorem splitSlash_ne_nil (p : Str) : splitSlash p ≠ [] := by
  cases p with
  | nil => simp [splitSlash]
  | cons c t =>
    unfold splitSlash
    split_ifs
    · simp
    · split <;> simp

theorem splitSlash_append (s R : Str) (hs : '/' ∉ s) :
    splitSlash (s ++ R) = (s ++ (splitSlash R).headD []) :: (splitSlash R).tail := by
  induction s with
  | nil =>
    cases h : splitSlash R with
    | nil => exact absurd h (splitSlash_ne_nil R)
    | cons a l => simpa using h
  | cons c s ih =>
    have hc : c ≠ '/' := fun h => hs (h ▸ List.mem_cons_self _ _)
    have hs2 : '/' ∉ s := fun h => hs (List.mem_cons_of_mem _ h)
    rw [List.cons_append, splitSlash, if_neg hc, ih hs2]
    simp

theorem splitSlash_slashJoin (S : List Str) (hS : ∀ s ∈ S, Good s) (R : Str)
    (hR : R = [] ∨ R = ['/']) :
    splitSlash (slashJoin S ++ R) = [] :: (S ++ (splitSlash R).tail) := by
  induction S with
  | nil =>
    rcases hR with rfl | rfl <;> decide
  | cons s S ih =>
    have hs := hS s (List.mem_cons_self _ _)
    have ih2 := ih (fun x hx => hS x (List.mem_cons_of_mem _ hx))
    simp only [slashJoin, List.cons_append, List.append_assoc]
    rw [splitSlash, if_pos rfl, splitSlash_append s _ hs.2.1, ih2]
    simp

theorem dotdot_not_mem_canon (S : List Str) (hS : ∀ s ∈ S, Good s) (R : Str)
    (hR : R = [] ∨ R = ['/']) : ['.', '.'] ∉ splitSlash (slashJoin S ++ R) := by
  rw [splitSlash_slashJoin S hS R hR]
  intro h
  rcases List.mem_cons.1 h with h | h
  · cases h
  · rcases List.mem_append.1 h with h | h
    · exact (hS _ h).2.2.2 rfl
    · rcases hR with rfl | rfl
      · revert h; decide
      · revert h; decide

theorem render_eq_slashJoin (S : List Str) :
    ∃ R, (R = [] ∨ R = ['/']) ∧ render S = slashJoin S ++ R := by
  cases S with
  | nil => exact ⟨['/'], Or.inr rfl, rfl⟩
  | cons t T => exact ⟨[], Or.inl rfl, by simp [render]⟩

theorem cleanPath_form (p : Str) :
    ∃ S R, (∀ s ∈ S, Good s) ∧ (R = [] ∨ R = ['/']) ∧ cleanPath p = slashJoin S ++ R := by
  unfold cleanPath
  by_cases h : p = []
  · rw [if_pos h]; exact ⟨[], ['/'], by simp, Or.inr rfl, rfl⟩
  rw [if_neg h]
  have hh : (if p.head? ≠ some '/' then '/' :: p else p).head? = some '/' := by
    by_cases h1 : p.head? ≠ some '/'
    · rw [if_pos h1]; rfl
    · rw [if_neg h1]; exact not_not.1 h1
  generalize (if p.head? ≠ some '/' then '/' :: p else p) = q at hh ⊢
  obtain ⟨S, hS, hc⟩ := Clean_rooted q hh
  simp only [hc]
  have hS0 : render S ≠ ['/'] → render S = slashJoin S := by
    intro h2
    cases S with
    | nil => exact absurd rfl h2
    | cons t T => simp [render]
  by_cases h1 : q.getLast? = some '/' ∧ render S ≠ ['/']
  · rw [if_pos h1]
    have key : (if q.length = (render S).length + 1 ∧ (render S).isPrefixOf q = true then q
        else render S ++ ['/']) = render S ++ ['/'] := by
      by_cases h3 : q.length = (render S).length + 1 ∧ (render S).isPrefixOf q = true
      · rw [if_pos h3]
        obtain ⟨h4, h5⟩ := h3
        obtain ⟨t, rfl⟩ := List.isPrefixOf_iff_prefix.1 h5
        have ht : t.length = 1 := by simp at h4; omega
        obtain ⟨c, rfl⟩ := List.length_eq_one.1 ht
        have := h1.1
        rw [List.getLast?_concat] at this
        cases this
        rfl
      · rw [if_neg h3]
    rw [key, hS0 h1.2]
    exact ⟨S, ['/'], hS, Or.inr rfl, rfl⟩
  · rw [if_neg h1]
    obtain ⟨R, hR, e⟩ := render_eq_slashJoin S
    exact ⟨S, R, hS, hR, e⟩

theorem cleanPath_ne_of_dotdot (p : Str) (h : ['.', '.'] ∈ splitSlash p) : cleanPath p ≠ p := by
  intro hc
  obtain ⟨S, R, hS, hR, e⟩ := cleanPath_form p
  rw [hc] at e
  rw [e] at h
  exact dotdot_not_mem_canon S hS R hR h

theorem mapOpenLoop_cases (W : World) (e : OsError) (parts : List Str) (n i : Nat) :
    mapOpenLoop W e parts n i = e ∨ mapOpenLoop W e parts n i = .notExist := by
  induction n generalizing i with
  | zero => exact Or.inl rfl
  | succ n ih =>
    unfold mapOpenLoop
    split_ifs with h1
    · exact ih (i + 1)
    · split
      · exact Or.inl rfl
      · split_ifs
        · exact Or.inr rfl
        · exact ih (i + 1)

theorem toHTTPError_mapOpenError (W : World) (e : OsError) (name : Str) :
    (toHTTPError (mapOpenError W e name)).2 =
      if e = .notExist then StatusNotFound
      else if e = .permission then StatusForbidden
      else if mapOpenError W e name = .notExist then StatusNotFound
      else StatusInternalServerError := by
  cases e with
  | notExist => simp [mapOpenError, toHTTPError]
  | permission => simp [mapOpenError, toHTTPError]
  | other =>
    have h : mapOpenError W .other name = .other ∨ mapOpenError W .other name = .notExist := by
      simp only [mapOpenError]
      rw [if_neg (by simp)]
      exact mapOpenLoop_cases W _ _ _ _
    rcases h with h | h <;> rw [h] <;> simp [toHTTPError]

theorem firstMatch_none (data : List Nat) (k : Nat) (sigs : List sniffSig)
    (h : ∀ sig ∈ sigs, sig.match data k = "") :
    firstMatch data k sigs = "application/octet-stream" := by
  induction sigs with
  | nil => rfl
  | cons sig sigs ih =>
    simp only [firstMatch]
    rw [if_neg (by simp [h sig (List.mem_cons_self _ _)])]
    exact ih (fun s hs => h s (List.mem_cons_of_mem _ hs))

theorem Base_slashJoin (S : List Str) (hS : ∀ s ∈ S, Good s) (hne : S ≠ []) :
    path.Base (slashJoin S) = S.getLast hne := by
  obtain ⟨S0, s, rfl⟩ : ∃ S0 s, S = S0 ++ [s] :=
    ⟨S.dropLast, S.getLast hne, (List.dropLast_append_getLast hne).symm⟩
  have hs := hS s (by simp)
  have e : slashJoin (S0 ++ [s]) = slashJoin S0 ++ '/' :: s := by
    simp [slashJoin_append, slashJoin]
  have hrev : (slashJoin S0 ++ '/' :: s).reverse = s.reverse ++ '/' :: (slashJoin S0).reverse := by
    simp
  have hsr : '/' ∉ s.reverse := fun h => hs.2.1 (List.mem_reverse.1 h)
  have hd : (s.reverse ++ '/' :: (slashJoin S0).reverse).dropWhile (· = '/')
      = s.reverse ++ '/' :: (slashJoin S0).reverse := by
    obtain ⟨c, t, hc⟩ : ∃ c t, s.reverse = c :: t := by
      cases h : s.reverse with
      | nil => exact absurd (List.reverse_eq_nil_iff.1 h) hs.1
      | cons c t => exact ⟨c, t, rfl⟩
    rw [hc, List.cons_append, List.dropWhile_cons_of_neg]
    have : c ≠ '/' := fun h => hsr (by rw [hc, h]; exact List.mem_cons_self _ _)
    simpa using this
  have ht := (takeWhile_append_stop s.reverse ('/' :: (slashJoin S0).reverse) hsr
    (Or.inr rfl)).1
  have hne2 : slashJoin S0 ++ '/' :: s ≠ [] := by simp
  simp only [path.Base, e, if_neg hne2, hrev, hd, List.reverse_reverse, ht]
  rw [if_neg hs.1]
  simp

/-! ## Requests with a path in canonical form -/

theorem serve_eq_serveFile (env : Env) (W : World) (r : Request) (huri : r.requestURI ≠ ['*'])
    (hclean : cleanPath r.path = r.path) :
    serve env W r = some (serveFile W r "public".toList (path.Clean r.path) true) := by
  have hhead : r.path.head? = some '/' := by rw [← hclean]; exact cleanPath_head r.path
  obtain ⟨S, -, hc⟩ := Clean_rooted r.path hhead
  rw [serve_clean env W r huri hclean, fileHandler_eq_serveFile W r S hhead hc, hc]

theorem canon_localName (p : Str) (hclean : cleanPath p = p) :
    ∃ S, (∀ s ∈ S, Good s) ∧ path.Clean p = render S ∧
      localName p = "public".toList ++ slashJoin S ∧
      (Char.ofNat 0 ∉ p → Char.ofNat 0 ∉ slashJoin S) ∧
      (p.getLast? = some '/' → p.dropLast ++ indexPage = render (S ++ ["index.html".toList])) := by
  obtain ⟨S, hS, hc, h | h⟩ := cleanPath_fixed p hclean
  · obtain ⟨hp, hl⟩ := h
    cases S with
    | nil =>
      refine ⟨[], hS, hc, ?_, ?_, ?_⟩
      · rw [hp]; rfl
      · intro _; simp [slashJoin]
      · intro _; rw [hp]; rfl
    | cons t T =>
      have hl2 := hl (by simp)
      have hr : render (t :: T) = slashJoin (t :: T) := by simp [render]
      refine ⟨t :: T, hS, hc, ?_, ?_, ?_⟩
      · rw [localName, if_neg hl2, hp, hr]
      · intro hn; rw [← hr, ← hp]; exact hn
      · intro h2; exact absurd h2 hl2
  · obtain ⟨hp, hne⟩ := h
    have hr : render S = slashJoin S := by simp [render, hne]
    have hl : p.getLast? = some '/' := by rw [hp, List.getLast?_concat]
    have hd : p.dropLast = slashJoin S := by rw [hp, hr, List.dropLast_concat]
    refine ⟨S, hS, hc, ?_, ?_, ?_⟩
    · rw [localName, if_pos hl, hd]
    · intro hn h2
      apply hn
      rw [hp, hr]
      exact List.mem_append_left _ h2
    · intro _
      rw [hd, ← slashJoin_index]
      simp [render]

theorem Dir_Open_canon_ok (W : World) (p : Str) (hclean : cleanPath p = p)
    (hnul : Char.ofNat 0 ∉ p) (f : File) (ho : W.osOpen (localName p) = .ok f) :
    Dir.Open W "public".toList (path.Clean p) = (.ok f, [localName p]) := by
  obtain ⟨S, hS, hc, hn, hz, -⟩ := canon_localName p hclean
  rw [hc, hn]
  exact Dir_Open_ok W S hS (hz hnul) f (by rw [← hn]; exact ho)

theorem Dir_Open_canon_error (W : World) (p : Str) (hclean : cleanPath p = p)
    (hnul : Char.ofNat 0 ∉ p) (e : OsError) (ho : W.osOpen (localName p) = .error e) :
    Dir.Open W "public".toList (path.Clean p) =
      (.error (mapOpenError W e (localName p)), [localName p]) := by
  obtain ⟨S, hS, hc, hn, hz, -⟩ := canon_localName p hclean
  rw [hc, hn]
  exact Dir_Open_error W S hS (hz hnul) e (by rw [← hn]; exact ho)

theorem localName_of_noslash (p : Str) (h : p.getLast? ≠ some '/') :
    localName p = "public".toList ++ p := by
  rw [localName, if_neg h]

/-! ## `mapOpenError` below a file -/

theorem mapOpenLoop_nonDir (W : World) (parts : List Str) (k : Nat) (fk : FileInfo)
    (hk : parts.getD k [] ≠ [])
    (hs : W.osStat (['/'].intercalate (parts.take (k + 1))) = .ok fk) (hd : fk.isDir = false)
    (hj : ∀ j, j < k → parts.getD j [] = [] ∨
      ∃ fj, W.osStat (['/'].intercalate (parts.take (j + 1))) = .ok fj ∧ fj.isDir = true)
    (n i : Nat) (hi : i ≤ k) (hn : k < i + n) :
    mapOpenLoop W .other parts n i = .notExist := by
  induction n generalizing i with
  | zero => omega
  | succ n ih =>
    unfold mapOpenLoop
    by_cases hik : i = k
    · subst hik
      rw [if_neg hk, hs]
      simp [hd]
    · have hlt : i < k := by omega
      rcases hj i hlt with h | ⟨fj, h1, h2⟩
      · rw [if_pos h]
        exact ih (i + 1) (by omega) (by omega)
      · by_cases h0 : parts.getD i [] = []
        · rw [if_pos h0]
          exact ih (i + 1) (by omega) (by omega)
        · rw [if_neg h0, h1]
          simp only [h2, Bool.not_true, Bool.false_eq_true, if_false]
          exact ih (i + 1) (by omega) (by omega)

theorem mapOpenError_nonDir (W : World) (name : Str) (h : NonDirOnTheWay W name) :
    mapOpenError W .other name = .notExist := by
  obtain ⟨k, fk, hlt, hk, hs, hd, hj⟩ := h
  unfold mapOpenError
  rw [if_neg (by simp)]
  exact mapOpenLoop_nonDir W _ k fk hk hs hd hj _ 0 (Nat.zero_le _) (by omega)

theorem mapOpenError_self (W : World) (e : OsError) (name : Str)
    (h : e = .notExist ∨ e = .permission) : mapOpenError W e name = e := by
  unfold mapOpenError
  rw [if_pos h]

/-! ## The later mux over the handler of `main` -/

theorem serveLater_eq (code : Nat) (env : Env) (W : World) (r : Request) :
    serveLater code env W r = some (serverHandlerLater none mainMux code W r) := rfl

theorem treeMatch_mainMux (host p : Str) :
    mainMux.treeMatch host p =
      if p.head? = some '/' then some ⟨.fileServer "public".toList, "/".toList⟩ else none := by
  unfold ServeMux.treeMatch
  have hh : mainMux.hosts = false := rfl
  simp only [hh, match_mainMux]
  simp

theorem count_slash_pos (p : Str) (h : p.head? = some '/') : 1 ≤ p.count '/' := by
  cases p with
  | nil => simp at h
  | cons c t =>
    simp only [List.head?_cons, Option.some.injEq] at h
    subst h
    simp

theorem matchOrRedirect_mainMux_fst (host p : Str) (u : Option Str) :
    (mainMux.matchOrRedirect host p u).1 = none ∨
      (mainMux.matchOrRedirect host p u).1 = some ⟨.fileServer "public".toList, "/".toList⟩ := by
  unfold ServeMux.matchOrRedirect
  simp only [treeMatch_mainMux]
  split_ifs <;> simp

theorem matchOrRedirect_mainMux (host p : Str) (u : Option Str) (hp : p.head? = some '/') :
    mainMux.matchOrRedirect host p u =
      (some ⟨.fileServer "public".toList, "/".toList⟩, none) := by
  unfold ServeMux.matchOrRedirect
  have hp2 : (p ++ ['/']).head? = some '/' := by
    cases p with
    | nil => simp at hp
    | cons c t => simpa using hp
  simp only [treeMatch_mainMux, if_pos hp, if_pos hp2]
  have hex : exactMatch (some ⟨.fileServer "public".toList, "/".toList⟩) (p ++ ['/']) = false := by
    have hc := count_slash_pos p hp
    have hl : (p ++ ['/']).getLast? = some '/' := List.getLast?_concat ..
    have h1 : ("/".toList).getLast? = some '/' := rfl
    have h2 : ("/".toList).count '/' = 1 := rfl
    simp only [exactMatch, h1, hl, h2, List.count_append]
    simp
    omega
  rw [hex]
  split_ifs <;> first | rfl | contradiction

theorem findHandler_mainMux (code : Nat) (r : Request) (hm : r.method ≠ "CONNECT") :
    mainMux.findHandler code r =
      if cleanPath r.escapedPath ≠ r.escapedPath then .redirect (cleanPath r.escapedPath) r.rawQuery code
      else .fileServer "public".toList := by
  unfold ServeMux.findHandler
  simp only [if_neg hm, matchOrRedirect_mainMux _ _ _ (cleanPath_head r.escapedPath)]

theorem findHandler_mainMux_cases (code : Nat) (r : Request) :
    mainMux.findHandler code r = .fileServer "public".toList ∨
      mainMux.findHandler code r = .notFound ∨
      ∃ u, mainMux.findHandler code r = .redirect u r.rawQuery code := by
  by_cases hm : r.method = "CONNECT"
  · unfold ServeMux.findHandler
    simp only [if_pos hm]
    cases h2 : (mainMux.matchOrRedirect r.urlHost r.escapedPath (some r.path)).2 with
    | some u => exact Or.inr (Or.inr ⟨u, rfl⟩)
    | none =>
      simp only
      rcases matchOrRedirect_mainMux_fst r.host r.escapedPath none with h | h
      · rw [h]; exact Or.inr (Or.inl rfl)
      · rw [h]; exact Or.inl rfl
  · rw [findHandler_mainMux code r hm]
    split_ifs
    · exact Or.inr (Or.inr ⟨_, rfl⟩)
    · exact Or.inl rfl

theorem serveLater_unclean (code : Nat) (env : Env) (W : World) (r : Request)
    (huri : r.requestURI ≠ ['*']) (hm : r.method ≠ "CONNECT")
    (h : cleanPath r.escapedPath ≠ r.escapedPath) :
    serveLater code env W r = some ⟨Redirect r (cleanPath r.escapedPath) r.rawQuery code, []⟩ := by
  rw [serveLater_eq]
  unfold serverHandlerLater
  rw [if_neg (fun hh => huri hh.1)]
  simp only [ServeMux.ServeHTTPLater, if_neg huri, findHandler_mainMux code r hm, if_pos h,
    Handler.ServeHTTP]

theorem redirect_no_file (r : Request) (u q : Str) (code : Nat) (data : List Nat) :
    (Redirect r u q code).body ≠ .file data := by
  simp only [Redirect]
  split_ifs <;> simp

theorem serveLater_safe (code : Nat) (env : Env) (W : World) (r : Request) :
    ∃ s, serveLater code env W r = some s ∧ Safe W s := by
  refine ⟨_, serveLater_eq code env W r, ?_⟩
  unfold serverHandlerLater
  split_ifs with h1
  · exact safe_of_no_file W _ _ (by simp) (by simp)
  · simp only [ServeMux.ServeHTTPLater]
    split_ifs with h2
    · exact safe_of_no_file W _ _ (by simp) (by simp)
    · rcases findHandler_mainMux_cases code r with h | h | ⟨u, h⟩
      · rw [h]; exact fileHandler_safe W r
      · rw [h]; exact safe_of_no_file W _ _ (by simp) (by simp [Error])
      · rw [h]
        exact safe_of_no_file W _ _ (by simp) (fun data => redirect_no_file r u r.rawQuery code data)

theorem findHandler_mainMux_clean (code : Nat) (r : Request)
    (h : cleanPath r.escapedPath = r.escapedPath) :
    mainMux.findHandler code r = .fileServer "public".toList := by
  have hh : r.escapedPath.head? = some '/' := by rw [← h]; exact cleanPath_head _
  by_cases hm : r.method = "CONNECT"
  · unfold ServeMux.findHandler
    simp only [if_pos hm, matchOrRedirect_mainMux _ _ _ hh]
  · rw [findHandler_mainMux code r hm, if_neg (not_not.2 h)]

theorem serveLater_clean (code : Nat) (env : Env) (W : World) (r : Request)
    (huri : r.requestURI ≠ ['*']) (h : cleanPath r.escapedPath = r.escapedPath) :
    serveLater code env W r = some (fileHandler.ServeHTTP W "public".toList r) := by
  rw [serveLater_eq]
  unfold serverHandlerLater
  rw [if_neg (fun hh => huri hh.1)]
  simp only [ServeMux.ServeHTTPLater, if_neg huri, findHandler_mainMux_clean code r h,
    Handler.ServeHTTP]

theorem serveLater_eq_serve (code : Nat) (env : Env) (W : World) (r : Request)
    (huri : r.requestURI ≠ ['*']) (hclean : cleanPath r.path = r.path)
    (h : cleanPath r.escapedPath = r.escapedPath) :
    serveLater code env W r = serve env W r := by
  rw [serveLater_clean code env W r huri h, serve_clean env W r huri hclean]

/-! ## The claims -/

/-- C1: every name that the file server of `main` passes to `os.Open` is `public`
followed by zero or more path elements, none of which is `..` (nor empty, nor
`.`, nor holds a slash); a request can also be answered with nothing opened.
A response body made of file bytes is read from one of the files so opened.
Both hold for the file handler on its own and for the server that `main`
starts. -/
theorem opened_files_within_public (env : Env) (W : World) (r : Request) :
    ((∀ n ∈ (fileHandler.ServeHTTP W "public".toList r).opened,
        ∃ segs : List Str, (∀ e ∈ segs, Good e) ∧ n = "public".toList ++ slashJoin segs) ∧
      (∀ data, (fileHandler.ServeHTTP W "public".toList r).resp.body = .file data →
        ∃ n ∈ (fileHandler.ServeHTTP W "public".toList r).opened, ∃ f d,
          W.osOpen n = .ok f ∧ f.stat = .ok d ∧ data = f.data.take d.size)) ∧
    (∃ s, serve env W r = some s ∧
      (∀ n ∈ s.opened,
        ∃ segs : List Str, (∀ e ∈ segs, Good e) ∧ n = "public".toList ++ slashJoin segs) ∧
      (∀ data, s.resp.body = .file data →
        ∃ n ∈ s.opened, ∃ f d,
          W.osOpen n = .ok f ∧ f.stat = .ok d ∧ data = f.data.take d.size)) := by
  refine ⟨fileHandler_safe W r, ?_⟩
  obtain ⟨s, hs, h⟩ := serve_safe env W r
  exact ⟨s, hs, h.1, h.2⟩

/-- C2 as stated fails: with `public/index.html` holding `<h1>Hi</h1>`, the
request `GET /index.html` is answered with a 301 redirect to `./` and an empty
body, not with status 200 and the file. -/
theorem index_request_redirected :
    (∃ f d, exampleWorld.osOpen "public/index.html".toList = .ok f ∧ f.stat = .ok d ∧
      d.isDir = false ∧ f.data = bytes "<h1>Hi</h1>") ∧
    (serve portInUse exampleWorld (get "/index.html")).map (·.resp) =
      some (localRedirect (get "/index.html") "./".toList) ∧
    ¬ ((serve portInUse exampleWorld (get "/index.html")).map (·.resp.status) = some 200) :=
  ⟨⟨_, _, rfl, rfl, rfl, rfl⟩, by decide, by decide⟩

/-- C2, amended: take a request without `If-*` or `Range` header whose path is in
canonical form and does not end in `/index.html`, and for which
`http.Dir("public")` opens a file that `Stat` reports as a regular file.  When
the path does not end in `/`, the answer has status 200 and as body the first
`Size` bytes that reading the file yields (no body for `HEAD`): all the bytes
read, when there are no more of them than `Stat` reports.  When the path ends
in `/`, the answer is a 301 redirect to `../` followed by the file's name.  For a path without NUL byte the file is the
one `os.Open` opens under `public` followed by the path (without its final
slash).  The multiplexer of Go 1.22 and later gives the same answer when the
path as it was sent is in canonical form too.  The request `GET /index.html`
of the example is answered with a 301 redirect to `./`, and nothing is
opened. -/
theorem existing_file_served (env : Env) (W : World) (r : Request)
    (huri : r.requestURI ≠ ['*']) (hclean : cleanPath r.path = r.path)
    (hidx : ¬ indexPage.isSuffixOf r.path = true) :
    (∀ f d tr, Dir.Open W "public".toList (path.Clean r.path) = (.ok f, tr) →
      f.stat = .ok d → d.isDir = false →
      (r.path.getLast? ≠ some '/' →
        ∃ s, serve env W r = some s ∧ s.opened = tr ∧ s.resp.status = 200 ∧
          s.resp.body = (if r.method ≠ "HEAD" then .file (f.data.take d.size) else .empty) ∧
          (r.method ≠ "HEAD" → f.data.length ≤ d.size → s.resp.body = .file f.data)) ∧
      (r.path.getLast? = some '/' →
        serve env W r = some ⟨localRedirect r ("../".toList ++ path.Base r.path), tr⟩)) ∧
    (Char.ofNat 0 ∉ r.path → ∀ f, W.osOpen (localName r.path) = .ok f →
      Dir.Open W "public".toList (path.Clean r.path) = (.ok f, [localName r.path])) ∧
    (cleanPath r.escapedPath = r.escapedPath →
      ∀ code, serveLater code env W r = serve env W r) ∧
    serve env exampleWorld (get "/index.html") =
      some ⟨localRedirect (get "/index.html") "./".toList, []⟩ := by
  have hs := serve_eq_serveFile env W r huri hclean
  refine ⟨?_, ?_, ?_, ?_⟩
  · intro f d tr hopen hstat hreg
    constructor
    · intro hslash
      refine ⟨⟨serveContent W r d.name d.size f, tr⟩, ?_, rfl, rfl, ?_, ?_⟩
      · rw [hs, serveFile_regular W r _ f d tr hidx hopen hstat hreg hslash]
      · simp only [serveContent, File.read]
      · intro hm hlen
        simp only [serveContent, File.read, if_pos hm, List.take_of_length_le hlen]
    · intro hslash
      rw [hs]
      unfold serveFile
      rw [if_neg hidx, hopen]
      simp only [hstat, hreg]
      simp [hslash]
  · intro hnul f hf
    exact Dir_Open_canon_ok W r.path hclean hnul f hf
  · intro h code
    exact serveLater_eq_serve code env W r huri hclean h
  · rw [serve_eq_serveFile env exampleWorld (get "/index.html") (by decide) (by decide)]
    unfold serveFile
    rw [if_pos (by decide)]

/-- The amended C2 applies in the example: `GET /about.html` is answered with
status 200 and the bytes of `public/about.html`, and `GET /about.html/` with a
redirect to `../about.html`. -/
theorem existing_file_served_witness :
    (∃ s, serve portInUse exampleWorld (get "/about.html") = some s ∧
      s.opened = ["public/about.html".toList] ∧ s.resp.status = 200 ∧
      s.resp.body = .file (bytes "<p>About</p>")) ∧
    serve portInUse exampleWorld (get "/about.html/") =
      some ⟨localRedirect (get "/about.html/") "../about.html".toList,
        ["public/about.html".toList]⟩ := by
  constructor
  · obtain ⟨s, h1, h2, h3, -, h5⟩ :=
      ((existing_file_served portInUse exampleWorld (get "/about.html")
        (by decide) (by decide) (by decide)).1
        (regularFile "about.html".toList (bytes "<p>About</p>"))
        { name := "about.html".toList, size := 12, isDir := false }
        ["public/about.html".toList] rfl rfl rfl).1 (by decide)
    exact ⟨s, h1, h2, h3, h5 (by decide) (by decide)⟩
  · exact ((existing_file_served portInUse exampleWorld (get "/about.html/")
        (by decide) (by decide) (by decide)).1
        (regularFile "about.html".toList (bytes "<p>About</p>"))
        { name := "about.html".toList, size := 12, isDir := false }
        ["public/about.html".toList] rfl rfl rfl).2 (by decide)

set_option maxRecDepth 100000 in
/-- C3 as stated fails, twice.  Nothing exists at `public/missing/index.html`, yet
`GET /missing/index.html` is answered with a 301 redirect, not with 404.  And
nothing exists under a name of 256 bytes, which `os.Open` refuses as too long:
the request for it is answered with 500, not with 404. -/
theorem missing_index_redirected :
    (exampleWorld.osOpen "public/missing/index.html".toList = .error .notExist ∧
      exampleWorld.osOpen "public/missing".toList = .error .notExist ∧
      (serve portInUse exampleWorld (get "/missing/index.html")).map (·.resp.status)
        = some 301 ∧
      ¬ ((serve portInUse exampleWorld (get "/missing/index.html")).map (·.resp.status)
        = some 404)) ∧
    (exampleWorld.osOpen ("public/".toList ++ longName) = .error .other ∧
      exampleWorld.osStat ("public/".toList ++ longName) = .error .other ∧
      (serve portInUse exampleWorld getLong).map (·.resp.status) = some 500 ∧
      ¬ ((serve portInUse exampleWorld getLong).map (·.resp.status) = some 404)) :=
  ⟨⟨rfl, rfl, by decide, by decide⟩, ⟨rfl, rfl, by decide, by decide⟩⟩

/-- C3, amended: a request whose path is in canonical form and does not end in
`/index.html`, and for which `http.Dir("public")` reports that the file does
not exist (`fs.ErrNotExist`), is answered with status 404.  That is the case
whenever the path holds no NUL byte and `os.Open`, given `public` followed by
the path (without its final slash), finds no entry of that name, or fails for
another reason than that or permission while a leading part of the name is a
file and not a directory.  The multiplexer of Go 1.22 and later gives the same
answer when the path as it was sent is in canonical form too. -/
theorem missing_file_not_found (env : Env) (W : World) (r : Request)
    (huri : r.requestURI ≠ ['*']) (hclean : cleanPath r.path = r.path)
    (hidx : ¬ indexPage.isSuffixOf r.path = true) :
    (∀ tr, Dir.Open W "public".toList (path.Clean r.path) = (.error .notExist, tr) →
      ∃ s, serve env W r = some s ∧ s.resp.status = 404 ∧ s.opened = tr) ∧
    (Char.ofNat 0 ∉ r.path → ∀ e, W.osOpen (localName r.path) = .error e →
      (e = .notExist ∨ (e = .other ∧ NonDirOnTheWay W (localName r.path))) →
      ∃ s, serve env W r = some s ∧ s.resp.status = 404 ∧ s.opened = [localName r.path]) ∧
    (cleanPath r.escapedPath = r.escapedPath →
      ∀ code, serveLater code env W r = serve env W r) := by
  have key : ∀ tr, Dir.Open W "public".toList (path.Clean r.path) = (.error .notExist, tr) →
      ∃ s, serve env W r = some s ∧ s.resp.status = 404 ∧ s.opened = tr := by
    intro tr hopen
    refine ⟨⟨Error "404 page not found" 404, tr⟩, ?_, rfl, rfl⟩
    rw [serve_eq_serveFile env W r huri hclean,
      serveFile_open_error W r _ .notExist tr hidx hopen]
    rfl
  refine ⟨key, ?_, fun h code => serveLater_eq_serve code env W r huri hclean h⟩
  intro hnul e he hk
  apply key
  rw [Dir_Open_canon_error W r.path hclean hnul e he]
  rcases hk with rfl | ⟨rfl, hk⟩
  · rw [mapOpenError_self W _ _ (Or.inl rfl)]
  · rw [mapOpenError_nonDir W _ hk]

/-- The amended C3 applies in the example to `GET /missing.html`, to `GET
/missing/` and to `GET /about.html/x`, a name below a file: each is answered
with 404. -/
theorem missing_file_not_found_witness :
    (∃ s, serve portInUse exampleWorld (get "/missing.html") = some s ∧ s.resp.status = 404 ∧
      s.opened = ["public/missing.html".toList]) ∧
    (∃ s, serve portInUse exampleWorld (get "/missing/") = some s ∧ s.resp.status = 404 ∧
      s.opened = ["public/missing".toList]) ∧
    (∃ s, serve portInUse exampleWorld (get "/about.html/x") = some s ∧ s.resp.status = 404 ∧
      s.opened = [localName (get "/about.html/x").path]) :=
  ⟨(missing_file_not_found portInUse exampleWorld (get "/missing.html")
      (by decide) (by decide) (by decide)).1 _ rfl,
   (missing_file_not_found portInUse exampleWorld (get "/missing/")
      (by decide) (by decide) (by decide)).1 _ rfl,
   (missing_file_not_found portInUse exampleWorld (get "/about.html/x")
      (by decide) (by decide) (by decide)).2.1 (by decide) .other rfl
      (Or.inr ⟨rfl, 1, { name := "about.html".toList, size := 12, isDir := false },
        by decide, by decide, rfl, rfl,
        fun j hj => Or.inr ⟨{ name := "public".toList, size := 0, isDir := true }, by
          have : j = 0 := by omega
          subst this
          exact ⟨rfl, rfl⟩⟩⟩)⟩

/-- C4 as stated fails.  `GET /../main.go` is answered with a redirect to
`/main.go`, whose status is 301 under the multiplexer of Go 1.21 and the status
of its redirects (307 in recent releases) under the later one: not 400, 403 or
404.  And the later multiplexer does not see the `..` of the URL-encoded
variant `GET /docs/%2e%2e/about.html`: the file handler answers it with status
200 and the bytes of `public/about.html`. -/
theorem traversal_request_redirected :
    (['.', '.'] ∈ splitSlash (get "/../main.go").path ∧
      (serve portInUse exampleWorld (get "/../main.go")).map (·.resp) =
        some (Redirect (get "/../main.go") "/main.go".toList [] 301) ∧
      (serveLater 307 portInUse exampleWorld (get "/../main.go")).map (·.resp) =
        some (Redirect (get "/../main.go") "/main.go".toList [] 307) ∧
      ¬ ((serve portInUse exampleWorld (get "/../main.go")).map (·.resp.status) = some 400 ∨
         (serve portInUse exampleWorld (get "/../main.go")).map (·.resp.status) = some 403 ∨
         (serve portInUse exampleWorld (get "/../main.go")).map (·.resp.status) = some 404) ∧
      ¬ ((serveLater 307 portInUse exampleWorld (get "/../main.go")).map (·.resp.status)
            = some 400 ∨
         (serveLater 307 portInUse exampleWorld (get "/../main.go")).map (·.resp.status)
            = some 403 ∨
         (serveLater 307 portInUse exampleWorld (get "/../main.go")).map (·.resp.status)
            = some 404)) ∧
    (['.', '.'] ∈ splitSlash (getEscaped "/docs/%2e%2e/about.html" "/docs/../about.html").path ∧
      (serveLater 307 portInUse exampleWorld
        (getEscaped "/docs/%2e%2e/about.html" "/docs/../about.html")).map (·.resp.status)
        = some 200 ∧
      (serveLater 307 portInUse exampleWorld
        (getEscaped "/docs/%2e%2e/about.html" "/docs/../about.html")).map (·.resp.body)
        = some (.file (bytes "<p>About</p>")) ∧
      (serveLater 307 portInUse exampleWorld
        (getEscaped "/docs/%2e%2e/about.html" "/docs/../about.html")).map (·.opened)
        = some ["public/about.html".toList]) :=
  ⟨⟨by decide, by decide, by decide, by decide, by decide⟩,
   ⟨by decide, by decide, by decide, by decide⟩⟩

/-- C4, amended: a request other than `CONNECT` whose path, as the multiplexer
reads it, has a `..` segment is answered with a redirect to the cleaned path,
which has no `..` segment; nothing is opened, and the body is the short note
of `http.Redirect` and no file.  The multiplexer of Go 1.21 reads the decoded
path and redirects with status 301; the one of Go 1.22 and later reads the path
as it was sent, so that an encoded `..` passes, and redirects with the status
of its release (301, or 307 in recent ones).  Under either multiplexer and for
every request, every name opened is `public` followed by path elements none of
which is `..`, and a body of file bytes is read from a file so opened. -/
theorem traversal_redirected (env : Env) (W : World) (r : Request) (code : Nat) :
    (r.requestURI ≠ ['*'] → r.method ≠ "CONNECT" → ['.', '.'] ∈ splitSlash r.path →
      serve env W r = some ⟨Redirect r (cleanPath r.path) r.rawQuery 301, []⟩ ∧
      ['.', '.'] ∉ splitSlash (cleanPath r.path)) ∧
    (r.requestURI ≠ ['*'] → r.method ≠ "CONNECT" → ['.', '.'] ∈ splitSlash r.escapedPath →
      serveLater code env W r = some ⟨Redirect r (cleanPath r.escapedPath) r.rawQuery code, []⟩ ∧
      ['.', '.'] ∉ splitSlash (cleanPath r.escapedPath)) ∧
    (∃ s, serve env W r = some s ∧
      (∀ n ∈ s.opened,
        ∃ segs : List Str, (∀ e ∈ segs, Good e) ∧ n = "public".toList ++ slashJoin segs) ∧
      (∀ data, s.resp.body = .file data →
        ∃ n ∈ s.opened, ∃ f d,
          W.osOpen n = .ok f ∧ f.stat = .ok d ∧ data = f.data.take d.size)) ∧
    (∃ s, serveLater code env W r = some s ∧
      (∀ n ∈ s.opened,
        ∃ segs : List Str, (∀ e ∈ segs, Good e) ∧ n = "public".toList ++ slashJoin segs) ∧
      (∀ data, s.resp.body = .file data →
        ∃ n ∈ s.opened, ∃ f d,
          W.osOpen n = .ok f ∧ f.stat = .ok d ∧ data = f.data.take d.size)) := by
  have hno : ∀ p : Str, ['.', '.'] ∉ splitSlash (cleanPath p) := by
    intro p
    obtain ⟨S, R, hS, hR, e⟩ := cleanPath_form p
    rw [e]
    exact dotdot_not_mem_canon S hS R hR
  refine ⟨?_, ?_, ?_, ?_⟩
  · intro huri hm h
    exact ⟨serve_unclean env W r huri hm (cleanPath_ne_of_dotdot r.path h), hno _⟩
  · intro huri hm h
    exact ⟨serveLater_unclean code env W r huri hm (cleanPath_ne_of_dotdot r.escapedPath h),
      hno _⟩
  · obtain ⟨s, hs, h⟩ := serve_safe env W r
    exact ⟨s, hs, h.1, h.2⟩
  · obtain ⟨s, hs, h⟩ := serveLater_safe code env W r
    exact ⟨s, hs, h.1, h.2⟩

/-- The amended C4 applies to `GET /../../etc/passwd`: the answer is a redirect to
`/etc/passwd`, with status 301 under the multiplexer of Go 1.21 and with
status 307 under a later one that redirects with 307. -/
theorem traversal_redirected_witness :
    serve portInUse exampleWorld (get "/../../etc/passwd") =
      some ⟨Redirect (get "/../../etc/passwd") "/etc/passwd".toList [] 301, []⟩ ∧
    serveLater 307 portInUse exampleWorld (get "/../../etc/passwd") =
      some ⟨Redirect (get "/../../etc/passwd") "/etc/passwd".toList [] 307, []⟩ :=
  ⟨((traversal_redirected portInUse exampleWorld (get "/../../etc/passwd") 307).1
      (by decide) (by decide) (by decide)).1,
   ((traversal_redirected portInUse exampleWorld (get "/../../etc/passwd") 307).2.1
      (by decide) (by decide) (by decide)).1⟩

/-- C5 as stated fails: when the port is in use, `ListenAndServe` returns an
error, and the process ends with exit code 0 and nothing written to standard
error. -/
theorem bind_failure_exit_zero :
    portInUse.ListenAndServe ":8080".toList none =
      "listen tcp :8080: bind: address already in use" ∧
    ¬ ((main portInUse).exitCode ≠ 0) ∧ (main portInUse).stderr = [] :=
  ⟨rfl, by decide, by decide⟩

/-- C5, amended: whatever error `ListenAndServe` returns, `main` drops it and
returns after that single call: the process ends with exit code 0 and writes
nothing to standard error. -/
theorem main_drops_listen_error (env : Env) :
    (main env).exitCode = 0 ∧ (main env).stderr = [] ∧
      (main env).listen = some (":8080".toList, none) :=
  ⟨rfl, rfl, rfl⟩

/-- C6: `main` registers exactly one handler, the file server with root `public`
under the pattern `/`; that handler is the one the mux picks for every cleaned
request path, whatever the host; and `ListenAndServe` is called with the address
`:8080` and a nil handler. -/
theorem main_configuration (env : Env) :
    (main env).mux.m = [("/".toList, ⟨FileServer "public".toList, "/".toList⟩)] ∧
    (main env).mux.es = [⟨FileServer "public".toList, "/".toList⟩] ∧
    (∀ host p : Str,
      (main env).mux.handler host (cleanPath p) = (FileServer "public".toList, "/".toList)) ∧
    (main env).listen = some (":8080".toList, none) := by
  refine ⟨rfl, rfl, ?_, rfl⟩
  intro host p
  rw [main_eq, handler_mainMux, if_pos (cleanPath_head p)]
  rfl

/-- C7 as stated fails: `public/docs` is a directory, and `GET /docs` is answered
with a 301 redirect to `docs/`: neither an index page, nor a listing, nor a 403
or 404.  The path `/docs/../docs/` resolves to the same directory, and the
request for it is answered with a redirect by the multiplexer: with status 301
by the one of Go 1.21, with the status of its redirects by the later one. -/
theorem directory_without_slash_redirected :
    (∃ f d, exampleWorld.osOpen "public/docs".toList = .ok f ∧ f.stat = .ok d ∧
      d.isDir = true) ∧
    (serve portInUse exampleWorld (get "/docs")).map (·.resp) =
      some (localRedirect (get "/docs") "docs/".toList) ∧
    (serve portInUse exampleWorld (get "/docs")).map (·.resp.status) = some 301 ∧
    path.Clean "/docs/../docs/".toList = "/docs".toList ∧
    (serve portInUse exampleWorld (get "/docs/../docs/")).map (·.resp) =
      some (Redirect (get "/docs/../docs/") "/docs/".toList [] 301) ∧
    (serveLater 307 portInUse exampleWorld (get "/docs/../docs/")).map (·.resp) =
      some (Redirect (get "/docs/../docs/") "/docs/".toList [] 307) :=
  ⟨⟨_, _, rfl, rfl, rfl⟩, by decide, by decide, by decide, by decide, by decide⟩

/-- C7, amended: take a request without `If-*` or `Range` header whose path is in
canonical form and for which `http.Dir("public")` opens a directory.  The answer is a function of the
request and the file system, and it is one of the following.  When the path
does not end in `/` (nor in `/index.html`): a 301 redirect to the last element
of the path followed by `/`.  When the path ends in `/`: the bytes of the
directory's `index.html` with status 200, when that opens as a regular file;
the listing of `index.html`, when that is itself a directory; the listing of
the directory, when `index.html` cannot be opened or examined.  A listing has
status 200, and status 500 with the message `Error reading directory` takes
its place when the directory cannot be read.  The multiplexer of Go 1.22 and
later gives the same answer when the path as it was sent is in canonical form
too. -/
theorem directory_response (env : Env) (W : World) (r : Request) (f : File) (d : FileInfo)
    (tr : List Str) (huri : r.requestURI ≠ ['*']) (hclean : cleanPath r.path = r.path)
    (hopen : Dir.Open W "public".toList (path.Clean r.path) = (.ok f, tr))
    (hstat : f.stat = .ok d) (hdir : d.isDir = true) :
    (r.path.getLast? ≠ some '/' → ¬ indexPage.isSuffixOf r.path = true →
      serve env W r = some ⟨localRedirect r (path.Base r.path ++ ['/']), tr⟩) ∧
    (r.path.getLast? = some '/' →
      ∃ s, serve env W r = some s ∧
        ((∃ ff dd tr2,
            Dir.Open W "public".toList (r.path.dropLast ++ indexPage) = (.ok ff, tr2) ∧
            ff.stat = .ok dd ∧ dd.isDir = false ∧ s.opened = tr ++ tr2 ∧
            s.resp.status = 200 ∧
            s.resp.body = (if r.method ≠ "HEAD" then .file (ff.data.take dd.size) else .empty)) ∨
         (∃ ff dd tr2,
            Dir.Open W "public".toList (r.path.dropLast ++ indexPage) = (.ok ff, tr2) ∧
            ff.stat = .ok dd ∧ dd.isDir = true ∧ s.opened = tr ++ tr2 ∧
            s.resp = dirList ff) ∨
         (∃ tr2,
            ((∃ e, Dir.Open W "public".toList (r.path.dropLast ++ indexPage) = (.error e, tr2)) ∨
             (∃ ff e, Dir.Open W "public".toList (r.path.dropLast ++ indexPage) = (.ok ff, tr2) ∧
                ff.stat = .error e)) ∧
            s.opened = tr ++ tr2 ∧ s.resp = dirList f))) ∧
    (∀ g : File,
      (∀ entries, g.readdir = .ok entries →
        (dirList g).status = 200 ∧
        (dirList g).body = .listing (entries.mergeSort (fun a b => decide (a.name ≤ b.name)))) ∧
      (∀ e, g.readdir = .error e →
        (dirList g).status = 500 ∧ (dirList g).body = .text "Error reading directory")) ∧
    (cleanPath r.escapedPath = r.escapedPath →
      ∀ code, serveLater code env W r = serve env W r) := by
  have hs := serve_eq_serveFile env W r huri hclean
  obtain ⟨S, hS, hc, -, -, hix⟩ := canon_localName r.path hclean
  refine ⟨?_, ?_, ?_, fun h code => serveLater_eq_serve code env W r huri hclean h⟩
  · intro hslash hidx
    rw [hs, serveFile_dir_noslash W r _ f d tr hidx hopen hstat hdir hslash]
  · intro hl
    rw [hc] at hopen hs
    rw [hs, serveFile_dir_slash W r S hS f d tr hl hopen hstat hdir, hix hl]
    rcases h2 : Dir.Open W "public".toList (render (S ++ ["index.html".toList]))
      with ⟨res2, tr2⟩
    cases res2 with
    | error e =>
      exact ⟨⟨serveFound W r d f, tr ++ tr2⟩, rfl, Or.inr (Or.inr
        ⟨tr2, Or.inl ⟨e, rfl⟩, rfl, by simp only [serveFound, hdir, if_true]⟩)⟩
    | ok ff =>
      cases hst2 : ff.stat with
      | error e =>
        refine ⟨⟨serveFound W r d f, tr ++ tr2⟩, ?_, Or.inr (Or.inr
          ⟨tr2, Or.inr ⟨ff, e, rfl, hst2⟩, rfl, ?_⟩)⟩
        · simp only [hst2]
        · simp only [serveFound, hdir, if_true]
      | ok dd =>
        cases hd2 : dd.isDir with
        | true =>
          refine ⟨⟨serveFound W r dd ff, tr ++ tr2⟩, ?_, Or.inr (Or.inl
            ⟨ff, dd, tr2, rfl, hst2, hd2, rfl, ?_⟩)⟩
          · simp only [hst2]
          · simp only [serveFound, hd2, if_true]
        | false =>
          refine ⟨⟨serveFound W r dd ff, tr ++ tr2⟩, ?_, Or.inl
            ⟨ff, dd, tr2, rfl, hst2, hd2, rfl, ?_, ?_⟩⟩
          · simp only [hst2]
          · simp [serveFound, hd2, serveContent, StatusOK]
          · simp [serveFound, hd2, serveContent, File.read]
  · intro g
    constructor
    · intro entries he
      simp [dirList, he, StatusOK]
    · intro e he
      simp [dirList, he, Error, StatusInternalServerError]

/-- The amended C7 applies in the example: `GET /docs` is redirected to `docs/`,
`GET /docs/` gets one of the answers of the second kind (here the empty
listing of `docs`, the directory having no `index.html`), and so does `GET /`
(here the bytes of `public/index.html`). -/
theorem directory_response_witness :
    serve portInUse exampleWorld (get "/docs") = some
      ⟨localRedirect (get "/docs") "docs/".toList, ["public/docs".toList]⟩ ∧
    (∃ s, serve portInUse exampleWorld (get "/docs/") = some s ∧
      s.resp.status = 200 ∧ s.resp.body = .listing [] ∧
      s.opened = ["public/docs".toList, "public/docs/index.html".toList]) ∧
    (∃ s, serve portInUse exampleWorld (get "/") = some s ∧
      s.resp.status = 200 ∧ s.resp.body = .file (bytes "<h1>Hi</h1>") ∧
      s.opened = ["public".toList, "public/index.html".toList]) := by
  refine ⟨?_, ?_, ?_⟩
  · exact (directory_response portInUse exampleWorld (get "/docs")
      (directory "docs".toList []) { name := "docs".toList, size := 0, isDir := true }
      ["public/docs".toList] (by decide) (by decide) rfl rfl rfl).1 (by decide) (by decide)
  · have hix : Dir.Open exampleWorld "public".toList
        ((get "/docs/").path.dropLast ++ indexPage) =
        (.error .notExist, ["public/docs/index.html".toList]) := rfl
    have hall := directory_response portInUse exampleWorld (get "/docs/")
      (directory "docs".toList []) { name := "docs".toList, size := 0, isDir := true }
      ["public/docs".toList] (by decide) (by decide) rfl rfl rfl
    obtain ⟨s, h1, h2⟩ := hall.2.1 (by decide)
    have hlist := (hall.2.2.1 (directory "docs".toList [])).1 [] rfl
    rw [hix] at h2
    rcases h2 with ⟨ff, dd, tr2, h, -⟩ | ⟨ff, dd, tr2, h, -⟩ | ⟨tr2, h, ho, hr⟩
    · cases h
    · cases h
    · have htr : tr2 = ["public/docs/index.html".toList] := by
        rcases h with ⟨e, h⟩ | ⟨ff, e, h, -⟩
        · cases h; rfl
        · cases h
      subst htr
      refine ⟨s, h1, ?_, ?_, ho⟩
      · rw [hr]; exact hlist.1
      · rw [hr, hlist.2]; simp
  · obtain ⟨s, h1, -⟩ := (directory_response portInUse exampleWorld (get "/")
      (directory "public".toList
        [⟨"about.html".toList, false⟩, ⟨"broken.html".toList, false⟩, ⟨"docs".toList, true⟩,
         ⟨"index.html".toList, false⟩, ⟨"notes".toList, false⟩, ⟨"secret.html".toList, false⟩])
      { name := "public".toList, size := 0, isDir := true }
      ["public".toList] (by decide) (by decide) rfl rfl rfl).2.1 (by decide)
    exact ⟨s, h1, by
      have h2 : (serve portInUse exampleWorld (get "/")).map (·.resp.status) = some 200 := by
        decide
      rw [h1] at h2; simpa using h2, by
      have h2 : (serve portInUse exampleWorld (get "/")).map (·.resp.body)
          = some (.file (bytes "<h1>Hi</h1>")) := by decide
      rw [h1] at h2; simpa using h2, by
      have h2 : (serve portInUse exampleWorld (get "/")).map (·.opened)
          = some ["public".toList, "public/index.html".toList] := by decide
      rw [h1] at h2; simpa using h2⟩

/-- C8 as stated fails: `public/notes` has no extension the MIME table knows, and
`GET /notes` is answered with status 200 and the content type `text/plain;
charset=utf-8`, found by sniffing the contents, not `application/octet-stream`. -/
theorem unknown_extension_sniffed :
    exampleWorld.typeByExtension (filepath.Ext "notes".toList) = "" ∧
    (serve portInUse exampleWorld (get "/notes")).map (·.resp.status) = some 200 ∧
    (serve portInUse exampleWorld (get "/notes")).map (·.resp.contentType) =
      some (some "text/plain; charset=utf-8") ∧
    ¬ ((serve portInUse exampleWorld (get "/notes")).map (·.resp.contentType) =
      some (some "application/octet-stream")) :=
  ⟨by decide, by decide, by decide, by decide⟩

/-- C8, amended: for a regular file served with status 200 the content type is
the one the MIME table gives for the extension of the file's name; when the
table does not know the extension it is the result of sniffing the first 512
bytes of the contents, which is `application/octet-stream` when no signature
matches them. -/
theorem content_type_of_served_file (env : Env) (W : World) (r : Request) (f : File)
    (d : FileInfo) (huri : r.requestURI ≠ ['*'])
    (hclean : cleanPath r.path = r.path) (hslash : r.path.getLast? ≠ some '/')
    (hidx : ¬ indexPage.isSuffixOf r.path = true) (hnul : Char.ofNat 0 ∉ r.path)
    (hopen : W.osOpen ("public".toList ++ r.path) = .ok f) (hstat : f.stat = .ok d)
    (hreg : d.isDir = false) :
    (∃ s, serve env W r = some s ∧ s.resp.status = 200 ∧
      s.resp.contentType = some
        (if W.typeByExtension (filepath.Ext d.name) = "" then
          DetectContentType (f.data.take sniffLen)
        else W.typeByExtension (filepath.Ext d.name))) ∧
    (∀ data : List Nat, data.length ≤ sniffLen →
      (∀ sig ∈ sniffSignatures, sig.match data (data.takeWhile isWS).length = "") →
      DetectContentType data = "application/octet-stream") := by
  constructor
  · exact ⟨_, (serve_path_cases env W r huri hclean hslash hidx hnul).2.2.1 f d hopen hstat hreg,
      rfl, rfl⟩
  · intro data hlen h
    unfold DetectContentType
    simp only [if_neg (Nat.not_lt.2 hlen)]
    exact firstMatch_none data _ _ h

/-- The amended C8 applies to `GET /about.html` in the example, whose extension
the MIME table knows. -/
theorem content_type_of_served_file_witness :
    ∃ s, serve portInUse exampleWorld (get "/about.html") = some s ∧ s.resp.status = 200 ∧
      s.resp.contentType = some "text/html; charset=utf-8" := by
  obtain ⟨s, h1, h2, h3⟩ := (content_type_of_served_file portInUse exampleWorld
    (get "/about.html") (regularFile "about.html".toList (bytes "<p>About</p>"))
    { name := "about.html".toList, size := 12, isDir := false }
    (by decide) (by decide) (by decide) (by decide) (by decide) rfl rfl rfl).1
  exact ⟨s, h1, h2, h3.trans (by decide)⟩

/-- C9 as stated fails, twice.  Opening `public/secret.html` is denied, and `GET
/secret.html` is answered with status 403, which is neither 500 nor 404.  And
`public/broken.html` can be opened and examined but not read: `GET
/broken.html` is answered with status 200 and a body without a byte, since the
status has been sent when the reading starts. -/
theorem permission_denied_forbidden :
    (exampleWorld.osOpen "public/secret.html".toList = .error .permission ∧
      (serve portInUse exampleWorld (get "/secret.html")).map (·.resp.status) = some 403 ∧
      ¬ ((serve portInUse exampleWorld (get "/secret.html")).map (·.resp.status) = some 500 ∨
         (serve portInUse exampleWorld (get "/secret.html")).map (·.resp.status) = some 404)) ∧
    ((∃ f d, exampleWorld.osOpen "public/broken.html".toList = .ok f ∧ f.stat = .ok d ∧
        d.isDir = false ∧ d.size = 12 ∧ f.read d.size = ([], some .other)) ∧
      (serve portInUse exampleWorld (get "/broken.html")).map (·.resp.status) = some 200 ∧
      (serve portInUse exampleWorld (get "/broken.html")).map (·.resp.body)
        = some (.file []) ∧
      ¬ ((serve portInUse exampleWorld (get "/broken.html")).map (·.resp.status) = some 500 ∨
         (serve portInUse exampleWorld (get "/broken.html")).map (·.resp.status) = some 404)) :=
  ⟨⟨rfl, by decide, by decide⟩, ⟨⟨_, _, rfl, rfl, rfl, rfl, rfl⟩, by decide, by decide, by decide⟩⟩

/-- C9, amended: take a request whose path is in canonical form and does not end
in `/index.html`.  When `http.Dir("public")` cannot open its file, or `Stat`
fails on the open file, the handler returns the reply of `http.Error` whose
status follows the kind of the error: 404 when the file does not exist, 403
when permission is denied, 500 otherwise.  When the file is a regular file
that is open and examined but whose reading fails (request without `If-*` or
`Range` header, path not ending in `/`), the handler returns status 200, sent
before the reading, and as body the bytes read before the error.
For a path without NUL byte the error of `Dir.Open` is the error of `os.Open`
as `mapOpenError` passes it on, unchanged when it is of the first two kinds.
The multiplexer of Go 1.22 and later gives the same answer when the path as it
was sent is in canonical form too. -/
theorem open_error_status (env : Env) (W : World) (r : Request)
    (huri : r.requestURI ≠ ['*']) (hclean : cleanPath r.path = r.path)
    (hidx : ¬ indexPage.isSuffixOf r.path = true) :
    (∀ e tr, Dir.Open W "public".toList (path.Clean r.path) = (.error e, tr) →
      ∃ s, serve env W r = some s ∧ s.opened = tr ∧
        s.resp = Error
          (if e = .notExist then "404 page not found"
           else if e = .permission then "403 Forbidden" else "500 Internal Server Error")
          (if e = .notExist then 404 else if e = .permission then 403 else 500)) ∧
    (∀ f e tr, Dir.Open W "public".toList (path.Clean r.path) = (.ok f, tr) →
      f.stat = .error e →
      ∃ s, serve env W r = some s ∧ s.opened = tr ∧
        s.resp = Error
          (if e = .notExist then "404 page not found"
           else if e = .permission then "403 Forbidden" else "500 Internal Server Error")
          (if e = .notExist then 404 else if e = .permission then 403 else 500)) ∧
    (∀ f d e tr, Dir.Open W "public".toList (path.Clean r.path) = (.ok f, tr) →
      f.stat = .ok d → d.isDir = false → r.path.getLast? ≠ some '/' →
      f.data.length < d.size → f.readErr = some e →
      ∃ s, serve env W r = some s ∧ s.opened = tr ∧ s.resp.status = 200 ∧
        (f.read d.size).2 = some e ∧
        s.resp.body = (if r.method ≠ "HEAD" then .file f.data else .empty)) ∧
    (Char.ofNat 0 ∉ r.path → ∀ e, W.osOpen (localName r.path) = .error e →
      Dir.Open W "public".toList (path.Clean r.path) =
        (.error (mapOpenError W e (localName r.path)), [localName r.path]) ∧
      ((e = .notExist ∨ e = .permission) → mapOpenError W e (localName r.path) = e)) ∧
    (cleanPath r.escapedPath = r.escapedPath →
      ∀ code, serveLater code env W r = serve env W r) := by
  have hs := serve_eq_serveFile env W r huri hclean
  refine ⟨?_, ?_, ?_, ?_, fun h code => serveLater_eq_serve code env W r huri hclean h⟩
  · intro e tr hopen
    refine ⟨_, hs.trans (congrArg some (serveFile_open_error W r _ e tr hidx hopen)), rfl, ?_⟩
    cases e <;> rfl
  · intro f e tr hopen hst
    refine ⟨_, hs.trans (congrArg some (serveFile_stat_error W r _ f e tr hidx hopen hst)),
      rfl, ?_⟩
    cases e <;> rfl
  · intro f d e tr hopen hst hreg hslash hlen herr
    refine ⟨_, hs.trans (congrArg some
      (serveFile_regular W r _ f d tr hidx hopen hst hreg hslash)), rfl, rfl, ?_, ?_⟩
    · simp only [File.read, herr]
      rw [if_neg (by omega)]
    · simp only [serveContent, File.read]
      rw [List.take_of_length_le (by omega)]
  · intro hnul e he
    exact ⟨Dir_Open_canon_error W r.path hclean hnul e he,
      fun h => mapOpenError_self W e _ h⟩

/-- The amended C9 applies in the example to `GET /secret.html` (status 403), to
`GET /secret.html/` (status 403 as well) and to `GET /broken.html`, whose
reading fails (status 200, empty body). -/
theorem open_error_status_witness :
    (∃ s, serve portInUse exampleWorld (get "/secret.html") = some s ∧
      s.opened = ["public/secret.html".toList] ∧ s.resp = Error "403 Forbidden" 403) ∧
    (∃ s, serve portInUse exampleWorld (get "/secret.html/") = some s ∧
      s.opened = ["public/secret.html".toList] ∧ s.resp = Error "403 Forbidden" 403) ∧
    (∃ s, serve portInUse exampleWorld (get "/broken.html") = some s ∧
      s.opened = ["public/broken.html".toList] ∧ s.resp.status = 200 ∧
      s.resp.body = .file []) := by
  refine ⟨?_, ?_, ?_⟩
  · exact (open_error_status portInUse exampleWorld (get "/secret.html")
      (by decide) (by decide) (by decide)).1 .permission _ rfl
  · exact (open_error_status portInUse exampleWorld (get "/secret.html/")
      (by decide) (by decide) (by decide)).1 .permission _ rfl
  · obtain ⟨s, h1, h2, h3, -, h5⟩ :=
      (open_error_status portInUse exampleWorld (get "/broken.html")
        (by decide) (by decide) (by decide)).2.2.1
        { stat := .ok { name := "broken.html".toList, size := 12, isDir := false },
          data := [], readdir := .error .other, readErr := some .other }
        { name := "broken.html".toList, size := 12, isDir := false } .other
        ["public/broken.html".toList] rfl rfl rfl (by decide) (by decide) rfl
    exact ⟨s, h1, h2, h3, h5⟩

/-- C10: the path that the file handler cleans and joins to the root begins with
`/` and is made of elements none of which is empty, `.` or `..` (so it has no
doubled slash); cleaning it again, as `Dir.Open` does after putting a slash in
front, leaves it as it is.  It is the value the loop of `Clean` ends with: a
larger bound on the turns of the loop gives the same path. -/
theorem normalized_path_canonical (p : Str) :
    ∃ segs : List Str,
      (∀ e ∈ segs, e ≠ [] ∧ '/' ∉ e ∧ e ≠ ['.'] ∧ e ≠ ['.', '.']) ∧
      path.Clean (if ['/'].isPrefixOf p then p else '/' :: p) = '/' :: ['/'].intercalate segs ∧
      path.Clean (path.Clean (if ['/'].isPrefixOf p then p else '/' :: p)) =
        path.Clean (if ['/'].isPrefixOf p then p else '/' :: p) ∧
      path.Clean ('/' :: path.Clean (if ['/'].isPrefixOf p then p else '/' :: p)) =
        path.Clean (if ['/'].isPrefixOf p then p else '/' :: p) ∧
      (∀ fuel, (if ['/'].isPrefixOf p then p else '/' :: p).length ≤ fuel →
        path.cleanLoop true fuel (if ['/'].isPrefixOf p then p else '/' :: p).tail ['/'] 1 =
          path.Clean (if ['/'].isPrefixOf p then p else '/' :: p)) := by
  obtain ⟨S, hS, h⟩ := Clean_rooted _ (upath_head p)
  refine ⟨S, hS, ?_, ?_, ?_, ?_⟩
  · rw [h, render_eq_intercalate]
  · rw [h, Clean_render S hS]
  · rw [h, Clean_slash_render S hS]
  · intro fuel hf
    have hq := upath_head p
    generalize (if ['/'].isPrefixOf p then p else '/' :: p) = q at h hf hq ⊢
    rcases Clean_of_rooted q hq with h1 | ⟨h1, h2⟩
    · rw [h1]
      exact cleanLoop_fuel true _ _ _ _ _ (by simp; omega) (by simp)
    · rw [h2] at h
      exact absurd h.symm (by
        intro h3
        have := render_head S
        rw [h3] at this
        simp at this)

end StaticServer
